import Mathlib

/-!
# videostream: `bundle/build-browserify.js`

A shallow embedding of the build script's per-module rewrite-and-shrink
transform (`Megaify`), its replacement-block extractor (`getReplacements`) and
the bundle finisher (`makeBundle`), followed by theorems about them.

JavaScript strings are modelled as lists of characters, one list element per
string element of the source. The external collaborators (minifier, file
system, clock, environment) are parameters of the definitions.
-/

set_option maxRecDepth 100000

namespace Videostream

/-- A JavaScript string value. -/
abbrev Text := List Char

instance : Coe String Text := ⟨String.toList⟩

/-! ## The string built-ins the script uses -/

namespace JS

/-- Position of the first occurrence of `pat` in `s`, if there is one. -/
def find (pat : Text) : Text → Option Nat
  | [] => if pat.isPrefixOf [] then some 0 else none
  | c :: s => if pat.isPrefixOf (c :: s) then some 0 else (find pat s).map (· + 1)

/-- `s.indexOf(pat)`: the position of the first occurrence, or `-1`. -/
def indexOf (s pat : Text) : Int :=
  match find pat s with
  | some i => (i : Int)
  | none => -1

/-- The dollar sign, the ampersand, the grave accent and the apostrophe: the
characters of the replacement patterns. -/
def dollar : Char := Char.ofNat 36
def ampersand : Char := Char.ofNat 38
def grave : Char := Char.ofNat 96
def apostrophe : Char := Char.ofNat 39

/-- `GetSubstitution` for a match without capture groups: in a replacement
string `$$` stands for a dollar sign, `$&` for the matched text, the dollar
sign followed by a grave accent for the text before the match and followed by
an apostrophe for the text after it; every other character stands for itself
(with no capture groups `$1`..`$99` are not replaced). -/
def getSubstitution (matched before after : Text) : Text → Text
  | [] => []
  | [c] => [c]
  | c :: d :: rest =>
    if c = dollar then
      if d = dollar then dollar :: getSubstitution matched before after rest
      else if d = ampersand then matched ++ getSubstitution matched before after rest
      else if d = grave then before ++ getSubstitution matched before after rest
      else if d = apostrophe then after ++ getSubstitution matched before after rest
      else c :: getSubstitution matched before after (d :: rest)
    else c :: getSubstitution matched before after (d :: rest)

/-- `s.replace(pat, repl)` with a string pattern and a replacement string: only
the first occurrence of `pat` is replaced, by the expansion of `repl`. -/
def replace (s pat repl : Text) : Text :=
  match find pat s with
  | none => s
  | some i =>
    let before := s.take i
    let after := s.drop (i + pat.length)
    before ++ getSubstitution pat before after repl ++ after

/-- The number of positions of `s` at which `pat` occurs. -/
def occurrences (pat : Text) : Text → Nat
  | [] => if pat.isPrefixOf [] then 1 else 0
  | c :: s => (if pat.isPrefixOf (c :: s) then 1 else 0) + occurrences pat s

/-- No occurrence of `t` can overlap an inserted `r`: `t` fits at no position
inside `r`, and no proper end of `t` fits at the start of `r` (two texts fit
when one is the beginning of the other). -/
def noOverlap (t r : Text) : Prop :=
  (∀ k, k < r.length → ¬ (t <+: r.drop k ∨ r.drop k <+: t)) ∧
  (∀ l, l < t.length → 0 < l → ¬ (t.drop l <+: r ∨ r <+: t.drop l))

instance (t r : Text) : Decidable (noOverlap t r) := by
  unfold noOverlap
  exact inferInstance

/-- Putting `r` in the place of the one occurrence of `t` in a text cannot make
a new occurrence of `t`. At a position inside `r`: `t` does not fit there
whole, and when the rest of `r` is a beginning of `t` it is also an end of `t`
(the occurrence would have been there before, after the replaced one). At a
position before `r`: when the end of `t` that reaches into `r` fits inside `r`
it is also a beginning of `t` (the occurrence would have been there before,
in front of the replaced one), and `t` never runs over the whole of `r`. -/
def noNew (t r : Text) : Prop :=
  (∀ k, k < r.length → ¬ t <+: r.drop k ∧ (r.drop k <+: t → r.drop k <:+ t)) ∧
  (∀ l, l < t.length → 0 < l →
    (t.drop l <+: r → t.drop l <+: t) ∧ ¬ (r <+: t.drop l ∧ r.length < t.length - l))

instance (t r : Text) : Decidable (noNew t r) := by
  unfold noNew
  exact inferInstance

/-- One step of the output of a global regular-expression scan: a character
copied through, or a match together with the text before and after it. -/
inductive Piece where
  | text (c : Char)
  | hit (matched before after : Text)
  deriving DecidableEq, Repr

/-- The scan of `s.replace(/re/g, ...)`: `m rest` is the length of the match of
the expression at the start of `rest`, if it matches there. The scan tries every
position from left to right, resumes after the end of a match, and steps over
one character after an empty match. The first argument bounds the number of
steps; `scan` gives it one more than the length of the text, which is never
used up. -/
def scanFuel (m : Text → Option Nat) : Nat → Text → Text → List Piece
  | 0, _, _ => []
  | fuel + 1, before, s =>
    match m s with
    | some len =>
      if len = 0 then
        match s with
        | [] => [Piece.hit [] before []]
        | c :: rest =>
          Piece.hit [] before s :: Piece.text c :: scanFuel m fuel (before ++ [c]) rest
      else
        Piece.hit (s.take len) before (s.drop len)
          :: scanFuel m fuel (before ++ s.take len) (s.drop len)
    | none =>
      match s with
      | [] => []
      | c :: rest => Piece.text c :: scanFuel m fuel (before ++ [c]) rest

def scan (m : Text → Option Nat) (s : Text) : List Piece :=
  scanFuel m (s.length + 1) [] s

/-- The text a piece contributes to the result, given the substitution applied
to a match. -/
def Piece.render (f : Text → Text → Text → Text) : Piece → Text
  | Piece.text c => [c]
  | Piece.hit matched before after => f matched before after

/-- `s.replace(/re/g, f)`: every match is replaced by what `f` makes of it. -/
def replaceAll (m : Text → Option Nat) (f : Text → Text → Text → Text) (s : Text) : Text :=
  ((scan m s).map (Piece.render f)).flatten

/-- The matched text of a piece that is a match. -/
def Piece.region : Piece → Option Text
  | Piece.text _ => none
  | Piece.hit matched _ _ => some matched

/-- The matches a scan hands to the substitution, in order. -/
def hits (m : Text → Option Nat) (s : Text) : List Text :=
  (scan m s).filterMap Piece.region

/-- The matcher of a regular expression that is one literal text. -/
def literal (pat : Text) (s : Text) : Option Nat :=
  if pat.isPrefixOf s then some pat.length else none

/-- A word character of `\w`: an ASCII letter, a digit or the underscore. -/
def isWordChar (c : Char) : Bool :=
  c.isAlphanum || c = '_'

/-- `s.replace(/\W/g, '\\$&')`: a backslash is put before every non-word
character. -/
def escapeNonWord (s : Text) : Text :=
  s.flatMap fun c => if isWordChar c then [c] else ['\\', c]

/-- The text matched by a pattern source made of characters that stand for
themselves and of escapes `\c` that stand for `c`. -/
def unescape : Text → Text
  | [] => []
  | [c] => [c]
  | c :: d :: rest => if c = '\\' then d :: unescape rest else c :: unescape (d :: rest)

/-- `s.replace(/\\/g, '/')`. -/
def slashes (s : Text) : Text :=
  s.map fun c => if c = '\\' then '/' else c

end JS

/-- A number put into a string: its decimal digits. -/
def num (n : Nat) : Text := (Nat.repr n).toList

/-- The number of halvings that bring `n` below `2 ^ 53`; the first argument
bounds the number of steps. -/
def excessBits : Nat → Nat → Nat
  | 0, _ => 0
  | fuel + 1, n => if n < 2 ^ 53 then 0 else excessBits fuel (n / 2) + 1

/-- The JavaScript number nearest to the integer `n`: a number keeps 53
significant bits, so an integer below `2 ^ 53` is kept and a larger one is
rounded to the nearest multiple of `2 ^ e`, `e` being the number of bits in
excess, a tie going to the even multiple. (Integers beyond the largest finite
number, about `1.8e308`, are not modelled.) -/
def roundDouble (n : Nat) : Nat :=
  if n < 2 ^ 53 then n
  else
    let e := excessBits n n
    let q := n / 2 ^ e
    let r := n % 2 ^ e
    if 2 * r < 2 ^ e then q * 2 ^ e
    else if 2 ^ e < 2 * r then (q + 1) * 2 ^ e
    else if q % 2 = 0 then q * 2 ^ e
    else (q + 1) * 2 ^ e

/-! ## Process state and collaborators -/

/-- The process-wide state the script reads and writes: the two diagnostics
counters `files` and `sizes` (JavaScript numbers with integer values), what has
been written to the two output channels
(oldest first), and the exit status once `process.exit` has been called. -/
structure Process where
  files : Nat
  sizes : Nat
  stderr : List Text
  stdout : List Text
  exit : Option Nat
  deriving DecidableEq, Repr

/-- The state at start-up: `let files = 0, sizes = 0`, nothing written. -/
def Process.init : Process :=
  { files := 0, sizes := 0, stderr := [], stdout := [], exit := none }

def Process.writeErr (p : Process) (t : Text) : Process :=
  { p with stderr := p.stderr ++ [t] }

def Process.writeOut (p : Process) (t : Text) : Process :=
  { p with stdout := p.stdout ++ [t] }

/-- What `UglifyJS.minify` returns: `error` is set when minification failed,
`code` is the compacted text, `warnings` the list of warnings when present. -/
structure MinifyResult where
  error : Option Text
  code : Text
  warnings : Option (List Text)
  deriving DecidableEq, Repr

/-- The minifier with the script's fixed options; `none` is a result that is
not an object. -/
abbrev Minifier := Text → Option MinifyResult

/-- The helper constant `cwd`: the working directory with every backslash
turned into a slash. -/
def cwd (processCwd : Text) : Text := JS.slashes processCwd

/-! ## The transform `Megaify` -/

/-- One instance of the transform: its fields and the chunks it has pushed
downstream, oldest first. -/
structure Megaify where
  cwd : Text
  filesize : Nat
  filename : Text
  pushed : List Text
  deriving DecidableEq, Repr

/-- The constructor `Megaify(filename)`, called with or without `new` (without
it the function calls itself with `new`, once): `cwd` is the helper constant
and `size` is what `statSync(filename).size` returns. `files++` and
`sizes += this.filesize` are additions of JavaScript numbers, which round. -/
def Megaify.new (cwd : Text) (filename : Text) (size : Nat) (p : Process) :
    Megaify × Process :=
  let self : Megaify :=
    { cwd := cwd
      filesize := size
      filename := JS.replace (JS.slashes filename) cwd ".."
      pushed := [] }
  let p := p.writeErr
    ("Bundling \"".toList ++ self.filename ++ "\" (".toList ++ num self.filesize ++ " bytes)\n".toList)
  (self,
    { p with
      files := roundDouble (p.files + 1), sizes := roundDouble (p.sizes + self.filesize) })

/-- The method `getUtilsMod(asreq)`. -/
def Megaify.getUtilsMod (self : Megaify) (asreq : Bool) : Text :=
  let module := self.cwd ++ "/bundle/utils".toList
  if asreq then "require(\"".toList ++ module ++ "\")".toList else module

/-- The two markers of a replacement block. -/
def startMarker : Text := "/*<replacement>*/"
def endMarker : Text := "/*</replacement>*/"

/-- The regular expression of `getReplacements` at the start of `s`: the start
marker, then as few characters as possible (of any kind), then the end
marker. -/
def matchBlock (s : Text) : Option Nat :=
  if startMarker.isPrefixOf s then
    (JS.find endMarker (s.drop startMarker.length)).map
      fun j => startMarker.length + j + endMarker.length
  else none

/-- A replacement block: the start marker, any text, then the end marker, with
no shorter beginning of it of that form. -/
def IsBlock (r : Text) : Prop :=
  (∃ mid, r = startMarker ++ mid ++ endMarker) ∧
  ∀ mid rest, startMarker ++ mid ++ endMarker ++ rest = r → rest = []

/-- The method `getReplacements(chunk, filter)`: the filter is called with each
matched block and its return value replaces the block. -/
def Megaify.getReplacements (chunk : Text) (filter : Text → Text) : Text :=
  JS.replaceAll matchBlock (fun matched _ _ => filter matched) chunk

/-- The blocks `getReplacements` calls its filter with, in order. -/
def Megaify.filterCalls (chunk : Text) : List Text :=
  JS.hits matchBlock chunk

/-- The filter `_transform` passes to `getReplacements`. -/
def Megaify.filter (self : Megaify) (m : Text) : Text :=
  if JS.indexOf m "debugUtil" > 0 then
    "var debug = ".toList ++ self.getUtilsMod true ++ ".debuglog(\"stream\")".toList
  else if JS.indexOf m "var asyncWrite =" > 0 then
    "var asyncWrite = ".toList ++ self.getUtilsMod true ++ ".nextTick".toList
  else if JS.indexOf m "internalUtil" > 0 then
    "var deprecate = ".toList ++ self.getUtilsMod true ++ ".deprecate".toList
  else if JS.indexOf m "OurUint8Array" > 0 then
    "var _isUint8Array=".toList ++ self.getUtilsMod true
      ++ ".isU8,Buffer=require(\"buffer\").Buffer".toList
  else m

/-- The rule for `/mp4-box-encoding/index.js`. -/
def Megaify.ruleMp4BoxEncoding (chunk : Text) : Text :=
  let chunk := JS.replace chunk "Box = exports" "Box=exports;Box.boxes=boxes"
  JS.replace chunk "'Data too short'" "'Unsupported media format, data too short...'"

/-- The rule for `/pump/index.js`. -/
def Megaify.rulePump (chunk : Text) : Text :=
  let chunk := JS.replace chunk "var streams = Array.prototype.slice.call(arguments)"
    ("var i = arguments.length;".toList ++ "var streams = new Array(i);".toList
      ++ "while(i--) streams[i] = arguments[i];".toList)
  let chunk := JS.replace chunk "var fs = require('fs')" ""
  let chunk := JS.replace chunk "var isFS = function" "if(0)$&"
  JS.replace chunk "isFS(stream)" "0"

/-- The rule for `readable-stream`. -/
def Megaify.ruleReadableStream (self : Megaify) (chunk : Text) : Text :=
  let chunk := JS.replace chunk "var util = require('core-util-is');" ""
  let chunk := JS.replace chunk "util.inherits =" "var inherits ="
  let chunk := JS.replace chunk "util.inherits(" "inherits("
  let chunk := JS.replace chunk "require('isarray')" "Array.isArray"
  let re := JS.literal (JS.unescape (JS.escapeNonWord "require('process-nextick-args')"))
  let chunk := JS.replaceAll re
    (fun matched before after =>
      JS.getSubstitution matched before after (self.getUtilsMod true ++ ".nextTick".toList))
    chunk
  let chunk := JS.replace chunk " && dest !== process.stdout && dest !== process.stderr" ""
  let chunk := Megaify.getReplacements chunk self.filter
  let chunk := JS.replace chunk "internalUtil.deprecate(" "deprecate("
  JS.replace chunk "_uint8ArrayToBuffer" "Buffer.from"

/-- The rule for `mp4-stream/encode.js`. -/
def Megaify.ruleMp4StreamEncode (self : Megaify) (chunk : Text) : Text :=
  let chunk := JS.replace chunk "return process.nextTick" "return nextTick"
  JS.replace chunk "function noop () \x7b\x7d"
    ("var nextTick=".toList ++ self.getUtilsMod true
      ++ ".nextTick, Buffer = require(\"buffer\").Buffer;\n$&".toList)

/-- The rule for `/uint64be/index.js`. -/
def Megaify.ruleUint64be (chunk : Text) : Text :=
  JS.replace chunk "UINT_32_MAX = 0xffffffff" "UINT_32_MAX = Math.pow(2, 32)"

/-- The two replacements made in every module. -/
def Megaify.universal (self : Megaify) (chunk : Text) : Text :=
  let chunk := JS.replace chunk "require('safe-buffer').Buffer" "require('buffer').Buffer"
  JS.replace chunk "require('inherits')" (self.getUtilsMod true ++ ".inherit".toList)

/-- The first part of `_transform`: the chunk as it is handed to the minifier. -/
def Megaify.rewrite (self : Megaify) (chunk : Text) : Text :=
  let chunk :=
    if JS.indexOf self.filename "/mp4-box-encoding/index.js" > 0 then
      Megaify.ruleMp4BoxEncoding chunk
    else chunk
  let chunk :=
    if JS.indexOf self.filename "/pump/index.js" > 0 then Megaify.rulePump chunk else chunk
  let chunk :=
    if JS.indexOf self.filename "readable-stream" > 0 then self.ruleReadableStream chunk
    else chunk
  let chunk :=
    if JS.indexOf self.filename "mp4-stream/encode.js" > 0 then self.ruleMp4StreamEncode chunk
    else chunk
  let chunk :=
    if JS.indexOf self.filename "/uint64be/index.js" > 0 then Megaify.ruleUint64be chunk
    else chunk
  self.universal chunk

/-- One step of the rewrite: a `chunk.replace` with a string pattern and a
replacement string, or another transformation of the chunk. -/
inductive Step where
  | literal (target repl : Text)
  | other (f : Text → Text)

def Step.apply : Step → Text → Text
  | Step.literal target repl, chunk => JS.replace chunk target repl
  | Step.other f, chunk => f chunk

/-- The steps `_transform` performs on a chunk before minifying it, in order:
the steps of every rule whose test on the logical path holds, then the two
unconditional ones. -/
def Megaify.steps (self : Megaify) : List Step :=
  (if JS.indexOf self.filename "/mp4-box-encoding/index.js" > 0 then
    [Step.literal "Box = exports" "Box=exports;Box.boxes=boxes",
      Step.literal "'Data too short'" "'Unsupported media format, data too short...'"]
  else []) ++
  (if JS.indexOf self.filename "/pump/index.js" > 0 then
    [Step.literal "var streams = Array.prototype.slice.call(arguments)"
        ("var i = arguments.length;".toList ++ "var streams = new Array(i);".toList
          ++ "while(i--) streams[i] = arguments[i];".toList),
      Step.literal "var fs = require('fs')" "",
      Step.literal "var isFS = function" "if(0)$&",
      Step.literal "isFS(stream)" "0"]
  else []) ++
  (if JS.indexOf self.filename "readable-stream" > 0 then
    [Step.literal "var util = require('core-util-is');" "",
      Step.literal "util.inherits =" "var inherits =",
      Step.literal "util.inherits(" "inherits(",
      Step.literal "require('isarray')" "Array.isArray",
      Step.other fun chunk =>
        JS.replaceAll
          (JS.literal (JS.unescape (JS.escapeNonWord "require('process-nextick-args')")))
          (fun matched before after =>
            JS.getSubstitution matched before after
              (self.getUtilsMod true ++ ".nextTick".toList))
          chunk,
      Step.literal " && dest !== process.stdout && dest !== process.stderr" "",
      Step.other fun chunk => Megaify.getReplacements chunk self.filter,
      Step.literal "internalUtil.deprecate(" "deprecate(",
      Step.literal "_uint8ArrayToBuffer" "Buffer.from"]
  else []) ++
  (if JS.indexOf self.filename "mp4-stream/encode.js" > 0 then
    [Step.literal "return process.nextTick" "return nextTick",
      Step.literal "function noop () \x7b\x7d"
        ("var nextTick=".toList ++ self.getUtilsMod true
          ++ ".nextTick, Buffer = require(\"buffer\").Buffer;\n$&".toList)]
  else []) ++
  (if JS.indexOf self.filename "/uint64be/index.js" > 0 then
    [Step.literal "UINT_32_MAX = 0xffffffff" "UINT_32_MAX = Math.pow(2, 32)"]
  else []) ++
  [Step.literal "require('safe-buffer').Buffer" "require('buffer').Buffer",
    Step.literal "require('inherits')" (self.getUtilsMod true ++ ".inherit".toList)]

/-- The literal substitutions of the path rules that leave no occurrence of
their target in a text that holds it once: trigger, target, replacement. -/
def onceRules : List (Text × Text × Text) :=
  [("/mp4-box-encoding/index.js", "Box = exports", "Box=exports;Box.boxes=boxes"),
    ("/mp4-box-encoding/index.js", "'Data too short'",
      "'Unsupported media format, data too short...'"),
    ("/pump/index.js", "var streams = Array.prototype.slice.call(arguments)",
      "var i = arguments.length;".toList ++ "var streams = new Array(i);".toList
        ++ "while(i--) streams[i] = arguments[i];".toList),
    ("/pump/index.js", "isFS(stream)", "0"),
    ("readable-stream", "util.inherits =", "var inherits ="),
    ("readable-stream", "require('isarray')", "Array.isArray"),
    ("mp4-stream/encode.js", "return process.nextTick", "return nextTick"),
    ("/uint64be/index.js", "UINT_32_MAX = 0xffffffff", "UINT_32_MAX = Math.pow(2, 32)")]

/-- `warnings.join(sep)`. -/
def joinWith (sep : Text) : List Text → Text
  | [] => []
  | [w] => w
  | w :: ws => w ++ sep ++ joinWith sep ws

/-- The second part of `_transform`: what is done with the minifier's result.
Returns the chunk to push and the lines written to the diagnostic channel. -/
def Megaify.shrink (self : Megaify) (uglify : Option MinifyResult) (chunk : Text) :
    Text × List Text :=
  match uglify with
  | none => (chunk, [])
  | some u =>
    match u.error with
    | some e => (chunk, ["UglifyJS error: ".toList ++ e ++ "\n".toList])
    | none =>
      let chunk := u.code
      match u.warnings with
      | some ws =>
        let tag := "UglifyJS(".toList ++ self.filename ++ "): ".toList
        (chunk, [tag ++ joinWith ("\n".toList ++ tag) ws ++ "\n".toList])
      | none => (chunk, [])

/-- The method `_transform(chunk, enc, cb)`: rewrite, minify, push. -/
def Megaify._transform (minify : Minifier) (self : Megaify) (chunk : Text) (p : Process) :
    Megaify × Process :=
  let chunk := self.rewrite chunk
  let uglify := minify chunk
  let r := self.shrink uglify chunk
  ({ self with pushed := self.pushed ++ [r.1] }, { p with stderr := p.stderr ++ r.2 })

/-! ## The bundle finisher `makeBundle` -/

/-- What the callback of `b.bundle` reads from its environment. -/
structure Env where
  cwd : Text
  version : Text
  username : Option Text
  isoNow : Text
  elapsed : Nat
  deriving DecidableEq, Repr

/-- The header's timestamp. -/
def headerDate (iso : Text) : Text :=
  let d := iso.map fun c => if c = '-' then '/' else c
  let d := JS.replace d "T" " "
  d.takeWhile fun c => c != '.'

/-- The header comment. -/
def header (env : Env) : Text :=
  let user := match env.username with
    | some u => u
    | none => "undefined".toList
  "/**\n".toList
    ++ " * This file is automatically generated. Do not edit it.\n".toList
    ++ " * $Id: videostream.js,v ".toList ++ env.version ++ " ".toList ++ headerDate env.isoNow
    ++ " ".toList ++ user ++ " Exp $\n".toList
    ++ " */\n".toList

/-- The final transform over the bundle: every match of the working directory
is replaced by the empty string. -/
def scrub (cwd : Text) (buf : Text) : Text :=
  JS.replaceAll (JS.literal (JS.unescape (JS.escapeNonWord cwd)))
    (fun matched before after => JS.getSubstitution matched before after "") buf

/-- The callback `makeBundle` gives to `b.bundle`: `err` is the error's message
when bundling failed, `buf` the concatenated bundle. -/
def makeBundle (env : Env) (err : Option Text) (buf : Text) (p : Process) : Process :=
  match err with
  | some message =>
    let p := p.writeErr (message ++ "\n".toList)
    { p with exit := some 1 }
  | none =>
    let buf := scrub env.cwd buf
    let buf := header env ++ buf
    let p := p.writeOut buf
    let p := p.writeErr
      ("\n".toList ++ "Bundle created with size ".toList ++ num buf.length ++ " bytes,".toList
        ++ " from ".toList ++ num p.files ++ " files with a sum of ".toList ++ num p.sizes
        ++ " bytes.\n".toList
        ++ "Process took: ".toList ++ num env.elapsed ++ "ms\n".toList)
    { p with exit := some 0 }

/-! ## The transform as the bundler drives it -/

/-- What the bundler does with the transform: it instantiates it for a module
file, or hands a chunk to the instance created `i`-th. -/
inductive Event where
  | create (filename : Text) (size : Nat)
  | transform (i : Nat) (chunk : Text)
  deriving DecidableEq, Repr

/-- The process state together with the instances created so far. -/
structure Pipeline where
  process : Process
  instances : List Megaify
  deriving DecidableEq, Repr

def Pipeline.init : Pipeline :=
  { process := Process.init, instances := [] }

def Pipeline.step (cwd : Text) (minify : Minifier) (st : Pipeline) : Event → Pipeline
  | Event.create filename size =>
    let r := Megaify.new cwd filename size st.process
    { process := r.2, instances := st.instances ++ [r.1] }
  | Event.transform i chunk =>
    match st.instances.get? i with
    | none => st
    | some self =>
      let r := Megaify._transform minify self chunk st.process
      { process := r.2, instances := st.instances.set i r.1 }

def Pipeline.run (cwd : Text) (minify : Minifier) (events : List Event) : Pipeline :=
  events.foldl (Pipeline.step cwd minify) Pipeline.init

/-- The raw sizes of the modules instantiated by a sequence of events. -/
def Event.rawSizes : List Event → List Nat
  | [] => []
  | Event.create _ size :: rest => size :: Event.rawSizes rest
  | Event.transform _ _ :: rest => Event.rawSizes rest

/-- The triggers of the five path rules, in the order of the source. -/
def triggers : List Text :=
  ["/mp4-box-encoding/index.js", "/pump/index.js", "readable-stream", "mp4-stream/encode.js",
    "/uint64be/index.js"]

/-! ## Facts about the string built-ins -/

namespace JS

theorem infix_iff_drop {pat s : Text} : pat <:+: s ↔ ∃ j, pat <+: s.drop j := by
  constructor
  · rintro ⟨a, b, rfl⟩
    exact ⟨a.length, by simp⟩
  · rintro ⟨j, hj⟩
    exact List.infix_iff_prefix_suffix.mpr ⟨_, hj, List.drop_suffix _ _⟩

theorem find_some {pat : Text} : ∀ {s : Text} {i : Nat}, find pat s = some i →
    pat <+: s.drop i ∧ ∀ j, j < i → ¬ pat <+: s.drop j
  | [], i, h => by
    simp only [find] at h
    split at h
    · rename_i hp
      cases h
      exact ⟨List.isPrefixOf_iff_prefix.mp hp, fun j hj => absurd hj (Nat.not_lt_zero _)⟩
    · cases h
  | c :: s, i, h => by
    simp only [find] at h
    split at h
    · rename_i hp
      cases h
      exact ⟨by simpa using List.isPrefixOf_iff_prefix.mp hp,
        fun j hj => absurd hj (Nat.not_lt_zero _)⟩
    · rename_i hp
      cases hf : find pat s with
      | none => simp [hf] at h
      | some k =>
        simp only [hf, Option.map_some', Option.some.injEq] at h
        subst h
        obtain ⟨h1, h2⟩ := find_some hf
        refine ⟨by simpa using h1, ?_⟩
        intro j hj
        cases j with
        | zero =>
          intro hh
          exact hp (List.isPrefixOf_iff_prefix.mpr (by simpa using hh))
        | succ j => simpa using h2 j (by omega)

theorem find_none {pat : Text} : ∀ {s : Text}, find pat s = none → ¬ pat <:+: s
  | [], h => by
    simp only [find] at h
    split at h
    · cases h
    · rename_i hp
      intro hi
      exact hp (List.isPrefixOf_iff_prefix.mpr (by simpa using hi))
  | c :: s, h => by
    simp only [find] at h
    split at h
    · cases h
    · rename_i hp
      have hf : find pat s = none := by
        cases hf : find pat s with
        | none => rfl
        | some k => simp [hf] at h
      have ih := find_none hf
      intro hi
      rcases infix_iff_drop.mp hi with ⟨j, hj⟩
      cases j with
      | zero => exact hp (List.isPrefixOf_iff_prefix.mpr (by simpa using hj))
      | succ j => exact ih (infix_iff_drop.mpr ⟨j, by simpa using hj⟩)

theorem find_eq_none_iff {pat s : Text} : find pat s = none ↔ ¬ pat <:+: s := by
  constructor
  · exact find_none
  · intro h
    cases hf : find pat s with
    | none => rfl
    | some i => exact absurd (infix_iff_drop.mpr ⟨i, (find_some hf).1⟩) h

theorem find_le {pat : Text} : ∀ {s : Text} {i : Nat}, find pat s = some i → i ≤ s.length
  | [], i, h => by
    simp only [find] at h
    split at h
    · cases h; exact Nat.le_refl _
    · cases h
  | c :: s, i, h => by
    simp only [find] at h
    split at h
    · cases h; exact Nat.zero_le _
    · cases hf : find pat s with
      | none => simp [hf] at h
      | some k =>
        simp only [hf, Option.map_some', Option.some.injEq] at h
        subst h
        have := find_le hf
        simp only [List.length_cons]
        omega

/-- The first occurrence splits the text. -/
theorem find_split {pat s : Text} {i : Nat} (h : find pat s = some i) :
    s = s.take i ++ pat ++ s.drop (i + pat.length) ∧ i + pat.length ≤ s.length := by
  obtain ⟨t, ht⟩ := (find_some h).1
  have hlen : i + pat.length ≤ s.length := by
    have := congrArg List.length ht
    have hle := find_le h
    simp at this
    omega
  refine ⟨?_, hlen⟩
  have h2 : s.drop (i + pat.length) = t := by
    rw [← List.drop_drop, ← ht]
    simp
  rw [h2, List.append_assoc, ht, List.take_append_drop]

/-- The shape of a scan with a matcher whose matches are never empty: the text
is a first gap followed by matches, each with the gap after it; the result
keeps the gaps and replaces the matches. `Q` is any property of gaps that holds
of the empty text and is kept when a character at which the matcher fails is
put in front. -/
theorem scanFuel_segments (m : Text → Option Nat)
    (hm : ∀ s len, m s = some len → 0 < len ∧ len ≤ s.length)
    (Q : Text → Prop) (hQ0 : Q [])
    (hQ : ∀ c g rest, m (c :: (g ++ rest)) = none → Q g → Q (c :: g)) :
    ∀ (fuel : Nat) (b s : Text), s.length < fuel →
      ∃ (g0 : Text) (tail : List (Text × Text)),
        (scanFuel m fuel b s).filterMap Piece.region = tail.map Prod.fst ∧
        s = g0 ++ (tail.map fun x => x.1 ++ x.2).flatten ∧
        (∀ g : Text → Text,
          ((scanFuel m fuel b s).map (Piece.render fun r _ _ => g r)).flatten
            = g0 ++ (tail.map fun x => g x.1 ++ x.2).flatten) ∧
        Q g0 ∧ (∀ x ∈ tail, Q x.2) ∧
        (∀ x ∈ tail, ∃ rest, m (x.1 ++ rest) = some x.1.length) := by
  intro fuel
  induction fuel with
  | zero => intro b s h; omega
  | succ n ih =>
    intro b s hlen
    cases hms : m s with
    | none =>
      cases s with
      | nil =>
        exact ⟨[], [], by simp [scanFuel, hms], by simp, by simp [scanFuel, hms], hQ0,
          by simp, by simp⟩
      | cons c rest =>
        obtain ⟨g0, tail, h1, h2, h3, h4, h5, h6⟩ :=
          ih (b ++ [c]) rest (by simpa using hlen)
        refine ⟨c :: g0, tail, ?_, ?_, ?_, ?_, h5, h6⟩
        · simp [scanFuel, hms, Piece.region, h1]
        · rw [List.cons_append, ← h2]
        · intro g
          simp [scanFuel, hms, Piece.render, h3 g]
        · refine hQ c g0 (tail.map fun x => x.1 ++ x.2).flatten ?_ h4
          rw [← h2]
          exact hms
    | some len =>
      obtain ⟨hpos, hle⟩ := hm s len hms
      have hne : len ≠ 0 := by omega
      obtain ⟨g0, tail, h1, h2, h3, h4, h5, h6⟩ :=
        ih (b ++ s.take len) (s.drop len) (by simp only [List.length_drop]; omega)
      refine ⟨[], (s.take len, g0) :: tail, ?_, ?_, ?_, hQ0, ?_, ?_⟩
      · simp [scanFuel, hms, hne, Piece.region, h1]
      · simp only [List.map_cons, List.flatten_cons, List.nil_append, List.append_assoc]
        rw [← h2, List.take_append_drop]
      · intro g
        simp [scanFuel, hms, hne, Piece.render, h3 g]
      · intro x hx
        rcases List.mem_cons.mp hx with rfl | hx
        · exact h4
        · exact h5 x hx
      · intro x hx
        rcases List.mem_cons.mp hx with rfl | hx
        · refine ⟨s.drop len, ?_⟩
          simp only [List.take_append_drop, List.length_take]
          rw [hms, Nat.min_eq_left hle]
        · exact h6 x hx

/-- What a scan hands over and what it produces depend neither on the bound
on the number of steps, once it exceeds the length of the text, nor on the
text before the scanned part, when the substitution only looks at the match. -/
theorem scanFuel_irrel (m : Text → Option Nat)
    (hm : ∀ s len, m s = some len → 0 < len ∧ len ≤ s.length) :
    ∀ (n1 n2 : Nat) (b1 b2 s : Text), s.length < n1 → s.length < n2 →
      (scanFuel m n1 b1 s).filterMap Piece.region
        = (scanFuel m n2 b2 s).filterMap Piece.region ∧
      ∀ g : Text → Text,
        ((scanFuel m n1 b1 s).map (Piece.render fun r _ _ => g r)).flatten
          = ((scanFuel m n2 b2 s).map (Piece.render fun r _ _ => g r)).flatten := by
  intro n1
  induction n1 with
  | zero => intro n2 b1 b2 s h; omega
  | succ n1 ih =>
    intro n2 b1 b2 s h1 h2
    cases n2 with
    | zero => omega
    | succ n2 =>
      cases hms : m s with
      | none =>
        cases s with
        | nil => simp [scanFuel, hms]
        | cons c rest =>
          obtain ⟨e1, e2⟩ := ih n2 (b1 ++ [c]) (b2 ++ [c]) rest
            (by simpa using h1) (by simpa using h2)
          refine ⟨?_, ?_⟩
          · simp [scanFuel, hms, Piece.region, e1]
          · intro g
            simp [scanFuel, hms, Piece.render, e2 g]
      | some len =>
        obtain ⟨hpos, hle⟩ := hm s len hms
        have hne : len ≠ 0 := by omega
        obtain ⟨e1, e2⟩ := ih n2 (b1 ++ s.take len) (b2 ++ s.take len) (s.drop len)
          (by simp only [List.length_drop]; omega) (by simp only [List.length_drop]; omega)
        refine ⟨?_, ?_⟩
        · simp [scanFuel, hms, hne, Piece.region, e1]
        · intro g
          simp [scanFuel, hms, hne, Piece.render, e2 g]

theorem scanFuel_succ_some (m : Text → Option Nat) (n : Nat) (b : Text) {s : Text}
    {len : Nat} (hms : m s = some len) (hne : len ≠ 0) :
    scanFuel m (n + 1) b s
      = Piece.hit (s.take len) b (s.drop len) :: scanFuel m n (b ++ s.take len) (s.drop len) := by
  simp [scanFuel, hms, hne]

theorem scanFuel_succ_none (m : Text → Option Nat) (n : Nat) (b : Text) {c : Char}
    {rest : Text} (hms : m (c :: rest) = none) :
    scanFuel m (n + 1) b (c :: rest) = Piece.text c :: scanFuel m n (b ++ [c]) rest := by
  simp [scanFuel, hms]

/-- A scan at a position where the expression matches: the match is handed
over and replaced, and the scan goes on after it. -/
theorem scan_match (m : Text → Option Nat)
    (hm : ∀ s len, m s = some len → 0 < len ∧ len ≤ s.length)
    {s : Text} {len : Nat} (hms : m s = some len) :
    hits m s = s.take len :: hits m (s.drop len) ∧
    ∀ g : Text → Text,
      replaceAll m (fun r _ _ => g r) s
        = g (s.take len) ++ replaceAll m (fun r _ _ => g r) (s.drop len) := by
  obtain ⟨hpos, hle⟩ := hm s len hms
  have hne : len ≠ 0 := by omega
  obtain ⟨e1, e2⟩ := scanFuel_irrel m hm s.length ((s.drop len).length + 1)
    ([] ++ s.take len) [] (s.drop len)
    (by simp only [List.length_drop]; omega) (Nat.lt_succ_self _)
  refine ⟨?_, ?_⟩
  · show (scanFuel m (s.length + 1) [] s).filterMap Piece.region
      = s.take len :: (scanFuel m ((s.drop len).length + 1) [] (s.drop len)).filterMap Piece.region
    rw [scanFuel_succ_some m _ _ hms hne, ← e1]
    rfl
  · intro g
    show ((scanFuel m (s.length + 1) [] s).map (Piece.render fun r _ _ => g r)).flatten
      = g (s.take len)
        ++ ((scanFuel m ((s.drop len).length + 1) [] (s.drop len)).map
            (Piece.render fun r _ _ => g r)).flatten
    rw [scanFuel_succ_some m _ _ hms hne, ← e2 g]
    rfl

/-- A scan at a position where the expression does not match: the character
is kept and the scan goes on after it. -/
theorem scan_skip (m : Text → Option Nat)
    (hm : ∀ s len, m s = some len → 0 < len ∧ len ≤ s.length)
    {c : Char} {rest : Text} (hms : m (c :: rest) = none) :
    hits m (c :: rest) = hits m rest ∧
    ∀ g : Text → Text,
      replaceAll m (fun r _ _ => g r) (c :: rest)
        = c :: replaceAll m (fun r _ _ => g r) rest := by
  obtain ⟨e1, e2⟩ := scanFuel_irrel m hm (rest.length + 1) (rest.length + 1)
    ([] ++ [c]) [] rest (Nat.lt_succ_self _) (Nat.lt_succ_self _)
  refine ⟨?_, ?_⟩
  · show (scanFuel m (rest.length + 1 + 1) [] (c :: rest)).filterMap Piece.region
      = (scanFuel m (rest.length + 1) [] rest).filterMap Piece.region
    rw [scanFuel_succ_none m _ _ hms, ← e1]
    rfl
  · intro g
    show ((scanFuel m (rest.length + 1 + 1) [] (c :: rest)).map
          (Piece.render fun r _ _ => g r)).flatten
      = c :: ((scanFuel m (rest.length + 1) [] rest).map
          (Piece.render fun r _ _ => g r)).flatten
    rw [scanFuel_succ_none m _ _ hms, ← e2 g]
    rfl

/-- A scan of the empty text with an expression that has no empty match. -/
theorem scan_nil (m : Text → Option Nat)
    (hm : ∀ s len, m s = some len → 0 < len ∧ len ≤ s.length) :
    hits m [] = [] ∧ ∀ f, replaceAll m f [] = [] := by
  have hnone : m [] = none := by
    cases h : m [] with
    | none => rfl
    | some len =>
      have := hm [] len h
      simp only [List.length_nil] at this
      omega
  refine ⟨?_, ?_⟩
  · simp [hits, scan, scanFuel, hnone]
  · intro f
    simp [replaceAll, scan, scanFuel, hnone]

theorem unescape_cons_of_ne {c : Char} (h : c ≠ '\\') (rest : Text) :
    unescape (c :: rest) = c :: unescape rest := by
  cases rest with
  | nil => simp [unescape]
  | cons d rest => simp [unescape, h]

/-- The pattern source built from a text by `escapeNonWord` matches that text
and nothing else. -/
theorem unescape_escapeNonWord : ∀ s : Text, unescape (escapeNonWord s) = s
  | [] => by simp [escapeNonWord, unescape]
  | c :: s => by
    have ih := unescape_escapeNonWord s
    simp only [escapeNonWord, List.flatMap_cons] at ih ⊢
    by_cases hc : isWordChar c = true
    · have hne : c ≠ '\\' := by
        rintro rfl
        exact absurd hc (by decide)
      simp only [hc, if_true, List.singleton_append]
      rw [unescape_cons_of_ne hne, ih]
    · simp only [hc, List.cons_append, List.nil_append, Bool.false_eq_true, if_false]
      simp only [unescape, if_true]
      rw [ih]

theorem literal_some {pat s : Text} {len : Nat} (h : literal pat s = some len) :
    len = pat.length ∧ pat <+: s := by
  simp only [literal] at h
  split at h
  · rename_i hp
    cases h
    exact ⟨rfl, List.isPrefixOf_iff_prefix.mp hp⟩
  · cases h

theorem literal_none {pat s : Text} (h : literal pat s = none) : ¬ pat <+: s := by
  simp only [literal] at h
  split at h
  · cases h
  · rename_i hp
    exact fun hh => hp (List.isPrefixOf_iff_prefix.mpr hh)

theorem literal_wf {pat : Text} (hp : pat ≠ []) (s : Text) (len : Nat)
    (h : literal pat s = some len) : 0 < len ∧ len ≤ s.length := by
  obtain ⟨h1, h2⟩ := literal_some h
  subst h1
  exact ⟨List.length_pos.mpr hp, h2.length_le⟩

theorem not_infix_cons {pat g rest : Text} {c : Char} (h0 : ¬ pat <+: c :: (g ++ rest))
    (hg : ¬ pat <:+: g) : ¬ pat <:+: c :: g := by
  intro hi
  rcases infix_iff_drop.mp hi with ⟨j, hj⟩
  cases j with
  | zero =>
    apply h0
    have : pat <+: c :: g := by simpa using hj
    exact this.trans ⟨rest, by simp⟩
  | succ j => exact hg (infix_iff_drop.mpr ⟨j, by simpa using hj⟩)

/-- Replacing every match of a non-empty literal by the empty text: the text
is a first gap and then, for every match, the literal and the gap after it;
no gap contains the literal; the result is the gaps put together. -/
theorem replaceAll_literal_empty {pat : Text} (hp : pat ≠ []) (s : Text) :
    ∃ (g0 : Text) (gs : List Text),
      s = g0 ++ (gs.map fun g => pat ++ g).flatten ∧
      replaceAll (literal pat) (fun _ _ _ => []) s = g0 ++ gs.flatten ∧
      ¬ pat <:+: g0 ∧ ∀ g ∈ gs, ¬ pat <:+: g := by
  obtain ⟨g0, tail, -, h2, h3, h4, h5, h6⟩ :=
    scanFuel_segments (literal pat) (literal_wf hp) (fun g => ¬ pat <:+: g)
      (by
        intro hi
        exact hp (List.eq_nil_of_infix_nil hi))
      (fun c g rest hn hg => not_infix_cons (literal_none hn) hg)
      (s.length + 1) [] s (Nat.lt_succ_self _)
  have hfst : ∀ x ∈ tail, x.1 = pat := by
    intro x hx
    obtain ⟨rest, hr⟩ := h6 x hx
    obtain ⟨hl, hpre⟩ := literal_some hr
    have h1 : x.1 <+: x.1 ++ rest := List.prefix_append _ _
    exact (List.prefix_of_prefix_length_le h1 hpre (by omega)).eq_of_length hl
  refine ⟨g0, tail.map Prod.snd, ?_, ?_, h4, ?_⟩
  · rw [h2]
    congr 2
    rw [List.map_map]
    apply List.map_congr_left
    intro x hx
    simp [hfst x hx]
  · have := h3 (fun _ => [])
    simp only [replaceAll, scan]
    rw [this]
    simp
  · intro g hg
    obtain ⟨x, hx, rfl⟩ := List.mem_map.mp hg
    exact h5 x hx

theorem getSubstitution_of_no_dollar (matched before after : Text) :
    ∀ repl : Text, dollar ∉ repl → getSubstitution matched before after repl = repl
  | [], _ => by simp [getSubstitution]
  | [c], _ => by simp [getSubstitution]
  | c :: d :: rest, h => by
    have hc : c ≠ dollar := fun hc => h (by simp [hc])
    have ih := getSubstitution_of_no_dollar matched before after (d :: rest)
      (fun hd => h (List.mem_cons_of_mem _ hd))
    simp only [getSubstitution, if_neg hc, ih]

theorem occurrences_eq_zero {pat : Text} : ∀ {s : Text}, occurrences pat s = 0 → ¬ pat <:+: s
  | [], h => by
    simp only [occurrences] at h
    split at h
    · cases h
    · rename_i hp
      intro hi
      exact hp (List.isPrefixOf_iff_prefix.mpr (by simpa using hi))
  | c :: s, h => by
    simp only [occurrences] at h
    split at h
    · omega
    · rename_i hp
      have ih := @occurrences_eq_zero pat s (by omega)
      exact @not_infix_cons pat s [] c
        (by simpa using fun hh => hp (List.isPrefixOf_iff_prefix.mpr hh)) ih

theorem not_infix_after_of_occurrences_one {pat : Text} (hp : pat ≠ []) :
    ∀ {s : Text} {i : Nat}, find pat s = some i → occurrences pat s = 1 →
      ¬ pat <:+: s.drop (i + 1)
  | [], i, hf, _ => by
    simp only [find] at hf
    split at hf
    · rename_i h
      exact absurd (List.eq_nil_of_prefix_nil (List.isPrefixOf_iff_prefix.mp h)) hp
    · cases hf
  | c :: s, i, hf, ho => by
    simp only [find] at hf
    simp only [occurrences] at ho
    split at hf
    · rename_i h
      cases hf
      rw [if_pos h] at ho
      simpa using @occurrences_eq_zero pat s (by omega)
    · rename_i h
      rw [if_neg h] at ho
      cases hk : find pat s with
      | none => simp [hk] at hf
      | some k =>
        simp only [hk, Option.map_some', Option.some.injEq] at hf
        subst hf
        simpa using not_infix_after_of_occurrences_one hp hk (by omega)

theorem not_infix_take_of_find {pat s : Text} {i : Nat} (hp : pat ≠ [])
    (hf : find pat s = some i) : ¬ pat <:+: s.take i := by
  intro hi
  rcases infix_iff_drop.mp hi with ⟨j, hj⟩
  have hlen := hj.length_le
  have hpos : 0 < pat.length := List.length_pos.mpr hp
  simp only [List.length_drop, List.length_take] at hlen
  have hji : j < i := by omega
  refine (find_some hf).2 j hji (hj.trans ?_)
  rw [List.drop_take]
  exact List.take_prefix _ _

/-- Putting `r` in the place of an occurrence of `t` makes no new occurrence
of `t` when the two cannot overlap. -/
theorem not_infix_insert {t r pre post : Text} (hno : noOverlap t r)
    (hpre : ¬ t <:+: pre) (hpost : ¬ t <:+: post) : ¬ t <:+: pre ++ r ++ post := by
  rintro ⟨a, b, hab⟩
  rw [List.append_assoc, List.append_assoc] at hab
  rcases List.append_eq_append_iff.mp hab with ⟨a', ha, hrest⟩ | ⟨c', ha, hrest⟩
  · -- the occurrence starts inside `pre`
    rcases List.append_eq_append_iff.mp hrest with ⟨x, hx, -⟩ | ⟨y, ht, hy⟩
    · exact hpre ⟨a, x, by simp [ha, hx]⟩
    · by_cases hy0 : y = []
      · subst hy0
        exact hpre ⟨a, [], by simp [ha, ht]⟩
      by_cases ha0 : a' = []
      · subst ha0
        simp only [List.nil_append] at ht
        subst ht
        by_cases hr0 : r = []
        · subst hr0
          exact hpost ⟨[], b, by simpa using hy.symm⟩
        · refine hno.1 0 (List.length_pos.mpr hr0) ?_
          simp only [List.drop_zero]
          exact List.prefix_or_prefix_of_prefix ⟨b, rfl⟩ ⟨post, hy⟩
      · have hl : a'.length < t.length := by
          have h1 := congrArg List.length ht
          have h2 := List.length_pos.mpr hy0
          simp only [List.length_append] at h1
          omega
        refine hno.2 a'.length hl (List.length_pos.mpr ha0) ?_
        have hd : t.drop a'.length = y := by simp [ht]
        rw [hd]
        exact List.prefix_or_prefix_of_prefix ⟨b, rfl⟩ ⟨post, hy⟩
  · -- the occurrence starts at or after the start of `r`
    rcases List.append_eq_append_iff.mp hrest with ⟨x, -, hb⟩ | ⟨y, hr, hy⟩
    · exact hpost ⟨x, b, by simp [hb]⟩
    · by_cases hy0 : y = []
      · subst hy0
        exact hpost ⟨[], b, by simpa using hy⟩
      · have hl : c'.length < r.length := by
          have h1 := congrArg List.length hr
          have h2 := List.length_pos.mpr hy0
          simp only [List.length_append] at h1
          omega
        refine hno.1 c'.length hl ?_
        have hd : r.drop c'.length = y := by simp [hr]
        rw [hd]
        exact List.prefix_or_prefix_of_prefix ⟨b, hy⟩ ⟨post, rfl⟩

/-- A replacement of a literal that occurs exactly once, by a text without
replacement patterns that cannot overlap the literal: afterwards the literal
is gone and the same replacement changes nothing. -/
theorem replace_once {t r : Text} (ht : t ≠ []) (hr : dollar ∉ r) (hno : noOverlap t r)
    {s : Text} (h1 : occurrences t s = 1) :
    ¬ t <:+: replace s t r ∧ replace (replace s t r) t r = replace s t r := by
  have key : ¬ t <:+: replace s t r := by
    cases hf : find t s with
    | none =>
      have h0 : occurrences t s = 0 := by
        clear h1
        induction s with
        | nil =>
          simp only [find] at hf
          simp only [occurrences]
          split at hf
          · cases hf
          · rename_i h; simp [h]
        | cons c s ih =>
          simp only [find] at hf
          simp only [occurrences]
          split at hf
          · cases hf
          · rename_i h
            cases hk : find t s with
            | none => simp [h, ih hk]
            | some k => simp [hk] at hf
      omega
    | some i =>
      simp only [replace, hf, getSubstitution_of_no_dollar _ _ _ r hr]
      refine not_infix_insert hno (not_infix_take_of_find ht hf) ?_
      intro hi
      refine not_infix_after_of_occurrences_one ht hf h1 (hi.trans ?_)
      have hpos : 0 < t.length := List.length_pos.mpr ht
      have he : i + t.length = (i + 1) + (t.length - 1) := by omega
      rw [he, ← List.drop_drop]
      exact (List.drop_suffix _ _).isInfix
  refine ⟨key, ?_⟩
  generalize replace s t r = s2 at key
  simp [replace, find_eq_none_iff.mpr key]

/-- A replacement by a text without replacement patterns that cannot overlap
`t` makes no occurrence of `t` in a text that has none. -/
theorem not_infix_replace {t pat r s : Text} (hr : dollar ∉ r) (hno : noOverlap t r)
    (h : ¬ t <:+: s) : ¬ t <:+: replace s pat r := by
  cases hf : find pat s with
  | none => simpa [replace, hf] using h
  | some i =>
    simp only [replace, hf, getSubstitution_of_no_dollar _ _ _ r hr]
    exact not_infix_insert hno (fun hi => h (hi.trans (List.take_prefix _ _).isInfix))
      (fun hi => h (hi.trans (List.drop_suffix _ _).isInfix))

/-- Putting `r` in the place of the one occurrence of `t` in
`pre ++ t ++ post` makes no occurrence of `t`, when `noNew t r` holds, no
occurrence of `t` starts inside `pre` and none starts after the start of the
replaced one. -/
theorem not_infix_insert_once {t r pre post : Text} (ht : t ≠ []) (hno : noNew t r)
    (hfirst : ∀ a x, pre = a ++ x → x ≠ [] → ¬ t <+: x ++ (t ++ post))
    (hafter : ∀ v u, t = v ++ u → v ≠ [] → ¬ t <+: u ++ post)
    (hpost : ¬ t <:+: post) : ¬ t <:+: pre ++ r ++ post := by
  -- an end of `r` that is a beginning of `t`, running into `post`
  have inside : ∀ (y b : Text), y ≠ [] → (∃ c', r = c' ++ y) → t ++ b = y ++ post → False := by
    rintro y b hy0 ⟨c', hr⟩ hy
    have hl : c'.length < r.length := by
      have h1 := congrArg List.length hr
      have h2 := List.length_pos.mpr hy0
      simp only [List.length_append] at h1
      omega
    have hd : r.drop c'.length = y := by simp [hr]
    obtain ⟨hn1, hn2⟩ := hno.1 c'.length hl
    rw [hd] at hn1 hn2
    rcases List.prefix_or_prefix_of_prefix (⟨b, rfl⟩ : t <+: t ++ b) ⟨post, hy.symm⟩ with
      hty | hyt
    · exact hn1 hty
    · obtain ⟨v, hv⟩ := hn2 hyt
      have hv0 : v ≠ [] := by
        rintro rfl
        have hyt2 : t = y := by simpa using hv.symm
        exact hn1 ⟨[], by rw [List.append_nil]; exact hyt2⟩
      refine hafter v y hv.symm hv0 ?_
      exact ⟨b, hy⟩
  rintro ⟨a, b, hab⟩
  rw [List.append_assoc, List.append_assoc] at hab
  rcases List.append_eq_append_iff.mp hab with ⟨a', ha, hrest⟩ | ⟨c', ha, hrest⟩
  · -- the occurrence starts inside `pre`
    rcases List.append_eq_append_iff.mp hrest with ⟨x, hx, -⟩ | ⟨y, hty, hy⟩
    · refine hfirst a a' ha ?_ ?_
      · rintro rfl
        have hnil : t = [] ∧ x = [] := by simpa using hx.symm
        exact ht hnil.1
      · rw [hx]
        exact ⟨x ++ (t ++ post), by simp [List.append_assoc]⟩
    · by_cases ha0 : a' = []
      · subst ha0
        simp only [List.nil_append] at hty
        subst hty
        by_cases hr0 : r = []
        · subst hr0
          exact hpost ⟨[], b, by simpa using hy.symm⟩
        · exact inside r b hr0 ⟨[], rfl⟩ hy.symm
      by_cases hy0 : y = []
      · subst hy0
        refine hfirst a a' ha ha0 ?_
        rw [List.append_nil] at hty
        rw [← hty]
        exact ⟨t ++ post, rfl⟩
      have hl : a'.length < t.length := by
        have h1 := congrArg List.length hty
        have h2 := List.length_pos.mpr hy0
        simp only [List.length_append] at h1
        omega
      have hd : t.drop a'.length = y := by simp [hty]
      obtain ⟨hn1, hn2⟩ := hno.2 a'.length hl (List.length_pos.mpr ha0)
      rw [hd] at hn1 hn2
      rcases List.prefix_or_prefix_of_prefix (⟨b, rfl⟩ : y <+: y ++ b) ⟨post, hy⟩ with hyr | hry
      · -- the end of `t` lies inside `r`: the occurrence was there before
        obtain ⟨w, hw⟩ := hn1 hyr
        refine hfirst a a' ha ha0 ⟨w ++ post, ?_⟩
        have e1 : a' ++ (t ++ post) = a' ++ (y ++ w ++ post) := by rw [hw]
        have e2 : t ++ (w ++ post) = a' ++ y ++ (w ++ post) := by rw [← hty]
        rw [e1, e2]
        simp [List.append_assoc]
      · by_cases hlen : r.length < t.length - a'.length
        · exact hn2 ⟨hry, hlen⟩
        · have hyl : y.length = t.length - a'.length := by
            rw [← hd, List.length_drop]
          have heq : r = y := hry.eq_of_length_le (by omega)
          obtain ⟨w, hw⟩ := hn1 ⟨[], by simp [heq]⟩
          refine hfirst a a' ha ha0 ⟨w ++ post, ?_⟩
          have e1 : a' ++ (t ++ post) = a' ++ (y ++ w ++ post) := by rw [hw]
          have e2 : t ++ (w ++ post) = a' ++ y ++ (w ++ post) := by rw [← hty]
          rw [e1, e2]
          simp [List.append_assoc]
  · -- the occurrence starts at or after the start of `r`
    rcases List.append_eq_append_iff.mp hrest with ⟨x, -, hb⟩ | ⟨y, hr, hy⟩
    · exact hpost ⟨x, b, by simp [hb]⟩
    · by_cases hy0 : y = []
      · subst hy0
        exact hpost ⟨[], b, by simpa using hy⟩
      · exact inside y b hy0 ⟨c', hr⟩ hy

/-- A replacement of a literal that occurs exactly once, by a text without
replacement patterns for which `noNew` holds: afterwards the literal is gone
and the same replacement changes nothing. -/
theorem replace_once_noNew {t r : Text} (ht : t ≠ []) (hr : dollar ∉ r) (hno : noNew t r)
    {s : Text} (h1 : occurrences t s = 1) :
    ¬ t <:+: replace s t r ∧ replace (replace s t r) t r = replace s t r := by
  have key : ¬ t <:+: replace s t r := by
    cases hf : find t s with
    | none =>
      exfalso
      have hinf : t <:+: s := by
        by_contra hni
        have h0 : occurrences t s = 0 := by
          clear h1 hf
          induction s with
          | nil =>
            simp only [occurrences]
            rw [if_neg]
            intro hp
            exact hni ((List.isPrefixOf_iff_prefix.mp hp).isInfix)
          | cons c s ih =>
            simp only [occurrences]
            rw [if_neg, ih]
            · intro hi
              exact hni (hi.trans (List.suffix_cons c s).isInfix)
            · intro hp
              exact hni ((List.isPrefixOf_iff_prefix.mp hp).isInfix)
        omega
      exact find_none hf hinf
    | some i =>
      obtain ⟨hsplit, hle⟩ := find_split hf
      have hrep : replace s t r = s.take i ++ r ++ s.drop (i + t.length) := by
        simp only [replace, hf, getSubstitution_of_no_dollar _ _ _ r hr]
      rw [hrep]
      have hafter1 := not_infix_after_of_occurrences_one ht hf h1
      have hmin := (find_some hf).2
      have hilen : (s.take i).length = i := by
        rw [List.length_take]
        omega
      generalize s.take i = pre at hsplit hilen
      generalize s.drop (i + t.length) = post at hsplit
      subst hsplit
      subst hilen
      refine not_infix_insert_once ht hno ?_ ?_ ?_
      · intro a x hax hx0 hp
        subst hax
        have hal : a.length < (a ++ x).length := by
          have h3 := List.length_pos.mpr hx0
          rw [List.length_append]
          omega
        refine hmin a.length hal ?_
        have hs : (a ++ x ++ t ++ post).drop a.length = x ++ (t ++ post) := by
          rw [List.append_assoc, List.append_assoc, List.drop_left]
        rw [hs]
        exact hp
      · intro v u hvu hv0 hp
        apply hafter1
        have hv1 : 1 ≤ v.length := List.length_pos.mpr hv0
        have hs : (pre ++ t ++ post).drop (pre.length + v.length) = u ++ post := by
          rw [hvu, List.append_assoc, List.drop_append, List.append_assoc, List.drop_left]
        have hsuf : (pre ++ t ++ post).drop (pre.length + v.length)
            <:+ (pre ++ t ++ post).drop (pre.length + 1) := by
          have he : pre.length + v.length = (pre.length + 1) + (v.length - 1) := by omega
          rw [he, ← List.drop_drop]
          exact List.drop_suffix _ _
        rw [hs] at hsuf
        exact hp.isInfix.trans hsuf.isInfix
      · intro hi
        apply hafter1
        have hv1 : 1 ≤ t.length := List.length_pos.mpr ht
        have hs : (pre ++ t ++ post).drop (pre.length + t.length) = post := by
          rw [← List.length_append, List.drop_left]
        have hsuf : (pre ++ t ++ post).drop (pre.length + t.length)
            <:+ (pre ++ t ++ post).drop (pre.length + 1) := by
          have he : pre.length + t.length = (pre.length + 1) + (t.length - 1) := by omega
          rw [he, ← List.drop_drop]
          exact List.drop_suffix _ _
        rw [hs] at hsuf
        exact hi.trans hsuf.isInfix
  refine ⟨key, ?_⟩
  generalize replace s t r = s2 at key
  simp [replace, find_eq_none_iff.mpr key]

theorem indexOf_of_not_infix {s pat : Text} (h : ¬ pat <:+: s) : indexOf s pat = -1 := by
  simp [indexOf, find_eq_none_iff.mpr h]

theorem replace_of_not_infix {s pat : Text} (repl : Text) (h : ¬ pat <:+: s) :
    replace s pat repl = s := by
  simp [replace, find_eq_none_iff.mpr h]

end JS

/-! ## Facts about the replacement-block expression -/

theorem startMarker_length : startMarker.length = 17 := by decide

theorem endMarker_length : endMarker.length = 18 := by decide

theorem matchBlock_some {s : Text} {len : Nat} (h : matchBlock s = some len) :
    startMarker <+: s ∧
    ∃ j, JS.find endMarker (s.drop 17) = some j ∧ len = 17 + j + 18 := by
  simp only [matchBlock] at h
  split at h
  · rename_i hp
    cases hf : JS.find endMarker (s.drop startMarker.length) with
    | none => simp [hf] at h
    | some j =>
      simp only [hf, Option.map_some', Option.some.injEq] at h
      refine ⟨List.isPrefixOf_iff_prefix.mp hp, j, ?_, ?_⟩
      · rw [← startMarker_length]; exact hf
      · rw [← h, startMarker_length, endMarker_length]
  · cases h

theorem matchBlock_wf (s : Text) (len : Nat) (h : matchBlock s = some len) :
    0 < len ∧ len ≤ s.length := by
  obtain ⟨hp, j, hf, rfl⟩ := matchBlock_some h
  have h1 := (JS.find_split hf).2
  have h2 := hp.length_le
  rw [startMarker_length] at h2
  rw [endMarker_length, List.length_drop] at h1
  omega

/-- What the expression matches is a replacement block. -/
theorem isBlock_of_matchBlock {r rest : Text} (h : matchBlock (r ++ rest) = some r.length) :
    IsBlock r := by
  obtain ⟨hp, j, hf, hlen⟩ := matchBlock_some h
  have hS : startMarker <+: r :=
    List.prefix_of_prefix_length_le hp (List.prefix_append _ _)
      (by rw [startMarker_length]; omega)
  obtain ⟨r', rfl⟩ := hS
  have hd : (startMarker ++ r' ++ rest).drop 17 = r' ++ rest := by
    rw [List.append_assoc, ← startMarker_length, List.drop_left]
  rw [hd] at hf
  have hr' : r'.length = j + 18 := by
    simp only [List.length_append, startMarker_length] at hlen
    omega
  obtain ⟨hpre, hmin⟩ := JS.find_some hf
  have hdrop : (r' ++ rest).drop j = r'.drop j ++ rest := by
    rw [List.drop_append_of_le_length (by omega)]
  have hE : endMarker = r'.drop j := by
    rw [hdrop] at hpre
    exact (List.prefix_of_prefix_length_le hpre (List.prefix_append _ _)
      (by rw [endMarker_length, List.length_drop]; omega)).eq_of_length
      (by rw [endMarker_length, List.length_drop]; omega)
  refine ⟨⟨r'.take j, ?_⟩, ?_⟩
  · rw [List.append_assoc, hE, List.take_append_drop]
  · intro mid rest2 heq
    have heq2 : mid ++ endMarker ++ rest2 = r' := by
      have : startMarker ++ (mid ++ endMarker ++ rest2) = startMarker ++ r' := by
        simpa [List.append_assoc] using heq
      exact List.append_cancel_left this
    have hlen2 := congrArg List.length heq2
    simp only [List.length_append, endMarker_length] at hlen2
    have hge : ¬ mid.length < j := by
      intro hlt
      refine hmin mid.length hlt ?_
      rw [← heq2]
      refine ⟨rest2 ++ rest, ?_⟩
      simp [List.append_assoc]
    have : rest2.length = 0 := by omega
    exact List.length_eq_zero.mp this

/-- A replacement block at the start of a text is what the expression matches
there. -/
theorem matchBlock_of_isBlock {r : Text} (h : IsBlock r) (rest : Text) :
    matchBlock (r ++ rest) = some r.length := by
  obtain ⟨⟨mid, rfl⟩, hmin⟩ := h
  have hp : startMarker.isPrefixOf (startMarker ++ mid ++ endMarker ++ rest) = true :=
    List.isPrefixOf_iff_prefix.mpr ⟨mid ++ endMarker ++ rest, by simp [List.append_assoc]⟩
  have hd : (startMarker ++ mid ++ endMarker ++ rest).drop startMarker.length
      = mid ++ endMarker ++ rest := by
    simp [List.append_assoc]
  simp only [matchBlock, hp, if_true, hd]
  cases hf : JS.find endMarker (mid ++ endMarker ++ rest) with
  | none =>
    exact absurd ⟨mid, rest, rfl⟩ (JS.find_none hf)
  | some j =>
    obtain ⟨hpre, hfirst⟩ := JS.find_some hf
    have hle : j ≤ mid.length := by
      by_contra hgt
      refine hfirst mid.length (by omega) ?_
      simp [List.append_assoc]
    have hj : j = mid.length := by
      by_contra hne
      have hlt : j < mid.length := by omega
      -- a shorter block would end inside `mid ++ endMarker`
      have hdrop : (mid ++ endMarker ++ rest).drop j = (mid ++ endMarker).drop j ++ rest := by
        rw [List.drop_append_of_le_length (by simp; omega)]
      rw [hdrop] at hpre
      have hE : endMarker <+: (mid ++ endMarker).drop j :=
        List.prefix_of_prefix_length_le hpre (List.prefix_append _ _)
          (by simp only [List.length_drop, List.length_append]; omega)
      obtain ⟨tl, htl⟩ := hE
      have hsplit : ∃ pre, pre.length = j ∧ mid ++ endMarker = pre ++ endMarker ++ tl :=
        ⟨(mid ++ endMarker).take j, by simp only [List.length_take, List.length_append]; omega,
          by rw [List.append_assoc, htl, List.take_append_drop]⟩
      obtain ⟨pre, hprelen, hsplit⟩ := hsplit
      have hnil := hmin pre tl (by
        rw [List.append_assoc startMarker mid, hsplit]
        simp [List.append_assoc])
      subst hnil
      have := congrArg List.length hsplit
      simp only [List.length_append, List.length_nil] at this
      omega
    simp only [Option.map_some', hj, List.length_append]

/-- The shape of `getReplacements`: the chunk is a first gap followed by the
blocks handed to the filter, each with the gap after it; the result keeps the
gaps and puts the filter's return values in the place of the blocks. -/
theorem getReplacements_segments (chunk : Text) :
    ∃ (g0 : Text) (tail : List (Text × Text)),
      Megaify.filterCalls chunk = tail.map Prod.fst ∧
      chunk = g0 ++ (tail.map fun x => x.1 ++ x.2).flatten ∧
      (∀ filter : Text → Text,
        Megaify.getReplacements chunk filter
          = g0 ++ (tail.map fun x => filter x.1 ++ x.2).flatten) ∧
      ∀ x ∈ tail, IsBlock x.1 := by
  obtain ⟨g0, tail, h1, h2, h3, -, -, h6⟩ :=
    JS.scanFuel_segments matchBlock matchBlock_wf (fun _ => True) trivial
      (fun _ _ _ _ _ => trivial) (chunk.length + 1) [] chunk (Nat.lt_succ_self _)
  refine ⟨g0, tail, h1, h2, fun filter => h3 filter, ?_⟩
  intro x hx
  obtain ⟨rest, hr⟩ := h6 x hx
  exact isBlock_of_matchBlock hr

theorem isBlock_length {r : Text} (h : IsBlock r) : 35 ≤ r.length := by
  obtain ⟨⟨mid, rfl⟩, -⟩ := h
  simp only [List.length_append, startMarker_length, endMarker_length]
  omega

/-- Two blocks side by side are matched one after the other. -/
theorem scan_two_blocks {b1 b2 : Text} (h1 : IsBlock b1) (h2 : IsBlock b2) :
    JS.scan matchBlock (b1 ++ b2)
      = [JS.Piece.hit b1 [] b2, JS.Piece.hit b2 b1 []] := by
  have hm1 := matchBlock_of_isBlock h1 b2
  have hm2 : matchBlock b2 = some b2.length := by
    simpa using matchBlock_of_isBlock h2 []
  have hl1 := isBlock_length h1
  have hl2 := isBlock_length h2
  have hn1 : b1.length ≠ 0 := by omega
  have hn2 : b2.length ≠ 0 := by omega
  have hnil : matchBlock [] = none := by decide
  obtain ⟨k, hk⟩ : ∃ k, (b1 ++ b2).length + 1 = k + 3 :=
    ⟨(b1 ++ b2).length - 2, by simp only [List.length_append]; omega⟩
  unfold JS.scan
  rw [hk]
  simp only [JS.scanFuel, hm1, hn1, if_false, List.take_left, List.drop_left,
    hm2, hn2, List.take_length, List.drop_length, hnil, List.nil_append]

theorem matchBlock_none_of_no_block {s : Text}
    (h : ¬ ∃ r tl, IsBlock r ∧ s = r ++ tl) : matchBlock s = none := by
  cases hm : matchBlock s with
  | none => rfl
  | some n =>
    exfalso
    obtain ⟨-, hle⟩ := matchBlock_wf s n hm
    refine h ⟨s.take n, s.drop n, ?_, (List.take_append_drop n s).symm⟩
    refine @isBlock_of_matchBlock (s.take n) (s.drop n) ?_
    rw [List.take_append_drop, List.length_take, Nat.min_eq_left hle]
    exact hm

/-- The extractor at a position where a block begins: the block is handed to
the filter, replaced by its return value, and the scan goes on after it. -/
theorem getReplacements_block (filter : Text → Text) {r : Text} (h : IsBlock r)
    (rest : Text) :
    Megaify.filterCalls (r ++ rest) = r :: Megaify.filterCalls rest ∧
    Megaify.getReplacements (r ++ rest) filter
      = filter r ++ Megaify.getReplacements rest filter := by
  obtain ⟨e1, e2⟩ := JS.scan_match matchBlock matchBlock_wf (matchBlock_of_isBlock h rest)
  simp only [List.take_left, List.drop_left] at e1 e2
  exact ⟨e1, e2 filter⟩

/-- The extractor at a position where no block begins: the character is kept
and the scan goes on after it. -/
theorem getReplacements_skip (filter : Text → Text) {c : Char} {rest : Text}
    (h : ¬ ∃ r tl, IsBlock r ∧ c :: rest = r ++ tl) :
    Megaify.filterCalls (c :: rest) = Megaify.filterCalls rest ∧
    Megaify.getReplacements (c :: rest) filter
      = c :: Megaify.getReplacements rest filter := by
  obtain ⟨e1, e2⟩ := JS.scan_skip matchBlock matchBlock_wf (matchBlock_none_of_no_block h)
  exact ⟨e1, e2 filter⟩

theorem getReplacements_nil (filter : Text → Text) :
    Megaify.filterCalls [] = [] ∧ Megaify.getReplacements [] filter = [] :=
  ⟨(JS.scan_nil matchBlock matchBlock_wf).1, (JS.scan_nil matchBlock matchBlock_wf).2 _⟩

theorem indexOf_pos_iff {b kw : Text} (h0 : ¬ kw <+: b) :
    JS.indexOf b kw > 0 ↔ kw <:+: b := by
  cases hf : JS.find kw b with
  | none =>
    simp only [JS.indexOf, hf]
    constructor
    · intro h
      exact absurd h (by decide)
    · intro h
      exact absurd h (JS.find_none hf)
  | some i =>
    simp only [JS.indexOf, hf]
    have hpre := (JS.find_some hf).1
    constructor
    · intro _
      exact JS.infix_iff_drop.mpr ⟨i, hpre⟩
    · intro _
      cases i with
      | zero => exact absurd (by simpa using hpre) h0
      | succ i => exact Int.natCast_pos.mpr (Nat.succ_pos i)

/-- A block starts with a slash, so a text that starts with another character
is not at its start. -/
theorem not_prefix_of_isBlock {r : Text} (h : IsBlock r) {c : Char} {k : Text}
    (hc : c ≠ '/') : ¬ (c :: k) <+: r := by
  obtain ⟨⟨mid, rfl⟩, -⟩ := h
  intro hp
  have hS : startMarker = '/' :: startMarker.tail := by decide
  rw [hS] at hp
  simp only [List.cons_append, List.cons_prefix_cons] at hp
  exact hc hp.1

theorem isBlock_head {r : Text} (h : IsBlock r) : ∃ k, r = '/' :: k := by
  obtain ⟨⟨mid, rfl⟩, -⟩ := h
  exact ⟨startMarker.tail ++ mid ++ endMarker, by
    have hS : startMarker = '/' :: startMarker.tail := by decide
    conv_lhs => rw [hS]
    simp⟩

theorem ne_of_isBlock {r : Text} (h : IsBlock r) {c : Char} {k : Text}
    (hc : c ≠ '/') : c :: k ≠ r := by
  intro he
  subst he
  exact not_prefix_of_isBlock h hc (List.prefix_refl _)

/-! ## Shrink stage -/

/-- C1: when the minifier returns no result object, or a result that carries
an error, `_transform` pushes exactly one chunk and it is the rewritten chunk,
whatever code and warnings the result carries. -/
theorem transform_pushes_rewritten_on_error (minify : Minifier) (self : Megaify)
    (chunk : Text) (p : Process)
    (h : minify (self.rewrite chunk) = none ∨
      ∃ u e, minify (self.rewrite chunk) = some u ∧ u.error = some e) :
    (Megaify._transform minify self chunk p).1.pushed = self.pushed ++ [self.rewrite chunk] := by
  rcases h with h | ⟨u, e, h, he⟩
  · simp [Megaify._transform, Megaify.shrink, h]
  · simp [Megaify._transform, Megaify.shrink, h, he]

theorem transform_pushes_rewritten_on_error_witness :
    ((fun _ => some { error := some "Unexpected token", code := "garbled", warnings := some [] } :
          Minifier)
        (Megaify.rewrite { cwd := "/w", filesize := 7, filename := "../main.js", pushed := [] }
          "var a = (") = none ∨
      ∃ u e,
        (fun _ => some { error := some "Unexpected token", code := "garbled", warnings := some [] } :
            Minifier)
          (Megaify.rewrite { cwd := "/w", filesize := 7, filename := "../main.js", pushed := [] }
            "var a = (") = some u ∧ u.error = some e) ∧
    (Megaify._transform
        (fun _ => some { error := some "Unexpected token", code := "garbled", warnings := some [] })
        { cwd := "/w", filesize := 7, filename := "../main.js", pushed := [] } "var a = ("
        Process.init).1.pushed
      = [] ++ [Megaify.rewrite { cwd := "/w", filesize := 7, filename := "../main.js", pushed := [] }
          "var a = ("] :=
  ⟨Or.inr ⟨_, _, rfl, rfl⟩,
    transform_pushes_rewritten_on_error _ _ _ _ (Or.inr ⟨_, _, rfl, rfl⟩)⟩

/-- C2: when the minifier's result carries no error, `_transform` pushes
exactly one chunk and it is the result's code; the pushed chunk is the same
whatever warnings the result carries, and the warnings only add one write to
the diagnostic channel in which every warning follows the tag
`UglifyJS(<filename>): `. -/
theorem transform_pushes_code_on_success (minify : Minifier) (self : Megaify)
    (chunk : Text) (p : Process) (u : MinifyResult)
    (h : minify (self.rewrite chunk) = some u) (he : u.error = none) :
    (Megaify._transform minify self chunk p).1.pushed = self.pushed ++ [u.code] ∧
    (∀ ws, (self.shrink (some { u with warnings := ws }) (self.rewrite chunk)).1 = u.code) ∧
    (Megaify._transform minify self chunk p).2.stderr = p.stderr ++
      (match u.warnings with
        | none => []
        | some ws =>
          [("UglifyJS(".toList ++ self.filename ++ "): ".toList)
            ++ joinWith ("\n".toList ++ ("UglifyJS(".toList ++ self.filename ++ "): ".toList)) ws
            ++ "\n".toList]) := by
  refine ⟨?_, ?_, ?_⟩
  · cases hw : u.warnings <;> simp [Megaify._transform, Megaify.shrink, h, he, hw]
  · intro ws
    cases ws <;> simp [Megaify.shrink, he]
  · cases hw : u.warnings <;> simp [Megaify._transform, Megaify.shrink, h, he, hw]

theorem transform_pushes_code_on_success_witness :
    (Megaify._transform
        (fun _ => some { error := none, code := "var a=1;", warnings := some ["Dropping unused"] })
        { cwd := "/w", filesize := 7, filename := "../main.js", pushed := [] } "var a = 1"
        Process.init).1.pushed = [("var a=1;" : Text)] ∧
    (Megaify._transform
        (fun _ => some { error := none, code := "var a=1;", warnings := some ["Dropping unused"] })
        { cwd := "/w", filesize := 7, filename := "../main.js", pushed := [] } "var a = 1"
        Process.init).2.stderr = [("UglifyJS(../main.js): Dropping unused\n" : Text)] := by
  have h := transform_pushes_code_on_success
    (fun _ => some { error := none, code := "var a=1;", warnings := some ["Dropping unused"] })
    { cwd := "/w", filesize := 7, filename := "../main.js", pushed := [] } "var a = 1"
    Process.init { error := none, code := "var a=1;", warnings := some ["Dropping unused"] }
    rfl rfl
  exact ⟨h.1, h.2.2.trans (by decide)⟩

/-! ## Diagnostics counters -/

theorem transform_keeps_counters (minify : Minifier) (self : Megaify) (chunk : Text)
    (p : Process) :
    (Megaify._transform minify self chunk p).2.files = p.files ∧
    (Megaify._transform minify self chunk p).2.sizes = p.sizes := by
  simp [Megaify._transform]

theorem roundDouble_of_lt {n : Nat} (h : n < 2 ^ 53) : roundDouble n = n := by
  unfold roundDouble
  rw [if_pos h]

theorem run_counters_from (cwd : Text) (minify : Minifier) (events : List Event) :
    ∀ st : Pipeline,
      st.process.files + (Event.rawSizes events).length < 2 ^ 53 →
      st.process.sizes + (Event.rawSizes events).sum < 2 ^ 53 →
      (events.foldl (Pipeline.step cwd minify) st).process.files
          = st.process.files + (Event.rawSizes events).length ∧
      (events.foldl (Pipeline.step cwd minify) st).process.sizes
          = st.process.sizes + (Event.rawSizes events).sum := by
  induction events with
  | nil => intro st _ _; simp [Event.rawSizes]
  | cons ev rest ih =>
    intro st hf hs
    cases ev with
    | create filename size =>
      simp only [Event.rawSizes, List.length_cons, List.sum_cons] at hf hs
      have e1 : (Pipeline.step cwd minify st (Event.create filename size)).process.files
          = st.process.files + 1 := by
        simp only [Pipeline.step, Megaify.new, Process.writeErr]
        exact roundDouble_of_lt (by omega)
      have e2 : (Pipeline.step cwd minify st (Event.create filename size)).process.sizes
          = st.process.sizes + size := by
        simp only [Pipeline.step, Megaify.new, Process.writeErr]
        exact roundDouble_of_lt (by omega)
      obtain ⟨h1, h2⟩ := ih (Pipeline.step cwd minify st (Event.create filename size))
        (by rw [e1]; omega) (by rw [e2]; omega)
      simp only [List.foldl_cons, Event.rawSizes, List.length_cons, List.sum_cons]
      rw [h1, h2, e1, e2]
      constructor <;> omega
    | transform i chunk =>
      simp only [Event.rawSizes] at hf hs
      have e1 : (Pipeline.step cwd minify st (Event.transform i chunk)).process.files
          = st.process.files := by
        simp only [Pipeline.step]
        cases st.instances.get? i <;> simp [Megaify._transform]
      have e2 : (Pipeline.step cwd minify st (Event.transform i chunk)).process.sizes
          = st.process.sizes := by
        simp only [Pipeline.step]
        cases st.instances.get? i <;> simp [Megaify._transform]
      obtain ⟨h1, h2⟩ := ih (Pipeline.step cwd minify st (Event.transform i chunk))
        (by rw [e1]; exact hf) (by rw [e2]; exact hs)
      simp only [List.foldl_cons, Event.rawSizes]
      rw [h1, h2, e1, e2]
      exact ⟨rfl, rfl⟩

/-- C4 (as stated, refuted): the counters are JavaScript numbers. After two
modules of raw sizes `2 ^ 53 - 1` and `2` the counter `sizes` holds
`9007199254740992`, while the sum of the raw sizes is `9007199254740993`. -/
theorem counters_round_large_sums :
    (Pipeline.run "/w" (fun _ => none)
        [Event.create "/w/a.js" (2 ^ 53 - 1), Event.create "/w/b.js" 2]).process.sizes
      = 9007199254740992 ∧
    (Event.rawSizes [Event.create "/w/a.js" (2 ^ 53 - 1), Event.create "/w/b.js" 2]).sum
      = 9007199254740993 ∧
    (Pipeline.run "/w" (fun _ => none)
        [Event.create "/w/a.js" (2 ^ 53 - 1), Event.create "/w/b.js" 2]).process.files = 2 := by
  decide

/-- C4 (amended): starting from `files = 0` and `sizes = 0`, after any sequence
of instantiations and `_transform` calls in which the number of instantiated
modules and the sum of their raw sizes stay below `2 ^ 53`, `files` is the
number of instantiated modules and `sizes` the sum of their raw sizes; a
`_transform` call leaves both counters as they are. -/
theorem counters_accurate (cwd : Text) (minify : Minifier) (events : List Event)
    (hn : (Event.rawSizes events).length < 2 ^ 53)
    (hs : (Event.rawSizes events).sum < 2 ^ 53) :
    (Pipeline.run cwd minify events).process.files = (Event.rawSizes events).length ∧
    (Pipeline.run cwd minify events).process.sizes = (Event.rawSizes events).sum ∧
    ∀ (self : Megaify) (chunk : Text) (p : Process),
      (Megaify._transform minify self chunk p).2.files = p.files ∧
      (Megaify._transform minify self chunk p).2.sizes = p.sizes := by
  obtain ⟨h1, h2⟩ := run_counters_from cwd minify events Pipeline.init
    (by simpa [Pipeline.init, Process.init] using hn)
    (by simpa [Pipeline.init, Process.init] using hs)
  refine ⟨?_, ?_, fun self chunk p => transform_keeps_counters minify self chunk p⟩
  · simpa [Pipeline.run, Pipeline.init, Process.init] using h1
  · simpa [Pipeline.run, Pipeline.init, Process.init] using h2

theorem counters_accurate_witness :
    ((Event.rawSizes
        [Event.create "/w/a.js" 120, Event.transform 0 "var a", Event.create "/w/b.js" 30,
          Event.transform 1 "var b", Event.transform 0 "var c"]).length < 2 ^ 53 ∧
      (Event.rawSizes
        [Event.create "/w/a.js" 120, Event.transform 0 "var a", Event.create "/w/b.js" 30,
          Event.transform 1 "var b", Event.transform 0 "var c"]).sum < 2 ^ 53) ∧
    (Pipeline.run "/w" (fun _ => none)
        [Event.create "/w/a.js" 120, Event.transform 0 "var a", Event.create "/w/b.js" 30,
          Event.transform 1 "var b", Event.transform 0 "var c"]).process.files = 2 ∧
    (Pipeline.run "/w" (fun _ => none)
        [Event.create "/w/a.js" 120, Event.transform 0 "var a", Event.create "/w/b.js" 30,
          Event.transform 1 "var b", Event.transform 0 "var c"]).process.sizes = 150 := by
  have h := counters_accurate "/w" (fun _ => none)
    [Event.create "/w/a.js" 120, Event.transform 0 "var a", Event.create "/w/b.js" 30,
      Event.transform 1 "var b", Event.transform 0 "var c"] (by decide) (by decide)
  exact ⟨⟨by decide, by decide⟩, h.1, h.2.1⟩

/-! ## Rule table -/

theorem indexOf_trigger_not_pos {filename t : Text} (h : ¬ t <:+: filename) :
    ¬ JS.indexOf filename t > 0 := by
  rw [JS.indexOf_of_not_infix h]
  decide

/-- C5: for a module whose logical path contains none of the five triggers,
the rewritten chunk is the chunk with the safe-buffer replacement and then the
inherits replacement applied; a chunk that contains neither of the two targets
is rewritten to itself. -/
theorem rewrite_unmatched (self : Megaify) (chunk : Text)
    (h : ∀ t ∈ triggers, ¬ t <:+: self.filename) :
    self.rewrite chunk
      = JS.replace (JS.replace chunk "require('safe-buffer').Buffer" "require('buffer').Buffer")
          "require('inherits')" (self.getUtilsMod true ++ ".inherit".toList) ∧
    (¬ ("require('safe-buffer').Buffer" : Text) <:+: chunk →
      ¬ ("require('inherits')" : Text) <:+: chunk → self.rewrite chunk = chunk) := by
  have h1 := indexOf_trigger_not_pos (h "/mp4-box-encoding/index.js" (by simp [triggers]))
  have h2 := indexOf_trigger_not_pos (h "/pump/index.js" (by simp [triggers]))
  have h3 := indexOf_trigger_not_pos (h "readable-stream" (by simp [triggers]))
  have h4 := indexOf_trigger_not_pos (h "mp4-stream/encode.js" (by simp [triggers]))
  have h5 := indexOf_trigger_not_pos (h "/uint64be/index.js" (by simp [triggers]))
  have hr : self.rewrite chunk = self.universal chunk := by
    simp only [Megaify.rewrite, if_neg h1, if_neg h2, if_neg h3, if_neg h4, if_neg h5]
  refine ⟨by rw [hr]; rfl, ?_⟩
  intro ha hb
  rw [hr]
  simp only [Megaify.universal]
  rw [JS.replace_of_not_infix _ ha, JS.replace_of_not_infix _ hb]

theorem rewrite_unmatched_witness :
    (∀ t ∈ triggers, ¬ t <:+: ("../bundle/main.js" : Text)) ∧
    Megaify.rewrite { cwd := "/w", filesize := 7, filename := "../bundle/main.js", pushed := [] }
        "var i = require('inherits')"
      = JS.replace
          (JS.replace "var i = require('inherits')" "require('safe-buffer').Buffer"
            "require('buffer').Buffer")
          "require('inherits')"
          (Megaify.getUtilsMod
            { cwd := "/w", filesize := 7, filename := "../bundle/main.js", pushed := [] } true
            ++ ".inherit".toList) :=
  ⟨by decide,
    (rewrite_unmatched
      { cwd := "/w", filesize := 7, filename := "../bundle/main.js", pushed := [] }
      "var i = require('inherits')" (by decide)).1⟩

/-- C6: a trigger at the very start of the logical path does not fire its rule.
The module file `/pump/index.js`, outside the working directory, keeps its
name as logical path; the path contains the trigger `/pump/index.js`, yet the
rewritten chunk is the chunk itself, while the rule would have removed the
`fs` import. -/
theorem rewrite_skips_trigger_at_start :
    (Megaify.new "/home/u/videostream" "/pump/index.js" 30 Process.init).1.filename
      = ("/pump/index.js" : Text) ∧
    ("/pump/index.js" : Text) <:+:
      (Megaify.new "/home/u/videostream" "/pump/index.js" 30 Process.init).1.filename ∧
    JS.indexOf (Megaify.new "/home/u/videostream" "/pump/index.js" 30 Process.init).1.filename
      "/pump/index.js" = 0 ∧
    (Megaify.new "/home/u/videostream" "/pump/index.js" 30 Process.init).1.rewrite
      "var fs = require('fs')" = ("var fs = require('fs')" : Text) ∧
    Megaify.rulePump "var fs = require('fs')" = ("" : Text) := by
  decide

/-! ## Replacement-block extractor -/

/-- C8: with a filter that returns its input unchanged `getReplacements`
returns the text unchanged; and for a text in which no start marker is followed
later by an end marker it returns the text unchanged for every filter, and the
filter is not called. -/
theorem getReplacements_identity (chunk : Text) :
    (∀ filter : Text → Text, (∀ m, filter m = m) →
      Megaify.getReplacements chunk filter = chunk) ∧
    ((¬ ∃ a b c, chunk = a ++ startMarker ++ b ++ endMarker ++ c) →
      ∀ filter : Text → Text,
        Megaify.getReplacements chunk filter = chunk ∧ Megaify.filterCalls chunk = []) := by
  obtain ⟨g0, tail, h1, h2, h3, h4⟩ := getReplacements_segments chunk
  constructor
  · intro filter hid
    rw [h3 filter]
    conv_rhs => rw [h2]
    congr 2
    apply List.map_congr_left
    intro x _
    rw [hid]
  · intro hno filter
    have ht : tail = [] := by
      cases tail with
      | nil => rfl
      | cons x tl =>
        exfalso
        obtain ⟨⟨mid, hmid⟩, -⟩ := h4 x (List.mem_cons_self _ _)
        apply hno
        refine ⟨g0, mid, x.2 ++ (tl.map fun y => y.1 ++ y.2).flatten, ?_⟩
        rw [h2]
        simp [hmid, List.append_assoc]
    subst ht
    refine ⟨?_, by simpa using h1⟩
    rw [h3 filter]
    simpa using h2.symm

theorem getReplacements_identity_witness :
    (∀ m : Text, (fun x : Text => x) m = m) ∧
    Megaify.getReplacements
        "a /*<replacement>*/ var b /*</replacement>*/ c /*<replacement>*/" (fun x => x)
      = ("a /*<replacement>*/ var b /*</replacement>*/ c /*<replacement>*/" : Text) ∧
    (¬ ∃ a b c, ("x /*<replacement>*/ y" : Text) = a ++ startMarker ++ b ++ endMarker ++ c) ∧
    Megaify.getReplacements "x /*<replacement>*/ y" (fun _ => "changed")
      = ("x /*<replacement>*/ y" : Text) ∧
    Megaify.filterCalls "x /*<replacement>*/ y" = [] := by
  have hno : ¬ ∃ a b c, ("x /*<replacement>*/ y" : Text)
      = a ++ startMarker ++ b ++ endMarker ++ c := by
    rintro ⟨a, b, c, h⟩
    have := congrArg List.length h
    simp only [List.length_append, startMarker_length, endMarker_length] at this
    have h21 : ("x /*<replacement>*/ y" : Text).length = 21 := by decide
    omega
  have h := getReplacements_identity "x /*<replacement>*/ y"
  exact ⟨fun _ => rfl,
    (getReplacements_identity
      "a /*<replacement>*/ var b /*</replacement>*/ c /*<replacement>*/").1 (fun x => x)
      (fun _ => rfl),
    hno, (h.2 hno _).1, (h.2 hno (fun x => x)).2⟩

/-- C9: the blocks `getReplacements` hands to its filter lie one after the
other in the text, with gaps between them; each is a replacement block (start
marker, text, end marker, and no shorter beginning of that form); the result
is the text with each block replaced by the filter's return value and the gaps
kept. The scan goes from left to right: where a block begins, that block is
handed over and the scan goes on after its end; where no block begins, the
character is kept and the scan goes on with the next one; so two blocks side
by side are handed over as two blocks, whatever follows them. -/
theorem getReplacements_regions (chunk : Text) (filter : Text → Text) :
    (∃ (g0 : Text) (tail : List (Text × Text)),
      Megaify.filterCalls chunk = tail.map Prod.fst ∧
      chunk = g0 ++ (tail.map fun x => x.1 ++ x.2).flatten ∧
      Megaify.getReplacements chunk filter
        = g0 ++ (tail.map fun x => filter x.1 ++ x.2).flatten) ∧
    (∀ r ∈ Megaify.filterCalls chunk, IsBlock r) ∧
    (∀ r rest, IsBlock r →
      Megaify.filterCalls (r ++ rest) = r :: Megaify.filterCalls rest ∧
      Megaify.getReplacements (r ++ rest) filter
        = filter r ++ Megaify.getReplacements rest filter) ∧
    (∀ c rest, (¬ ∃ r tl, IsBlock r ∧ c :: rest = r ++ tl) →
      Megaify.filterCalls (c :: rest) = Megaify.filterCalls rest ∧
      Megaify.getReplacements (c :: rest) filter
        = c :: Megaify.getReplacements rest filter) ∧
    (Megaify.filterCalls [] = [] ∧ Megaify.getReplacements [] filter = []) ∧
    (∀ b1 b2 rest, IsBlock b1 → IsBlock b2 →
      Megaify.filterCalls (b1 ++ b2 ++ rest) = b1 :: b2 :: Megaify.filterCalls rest ∧
      Megaify.getReplacements (b1 ++ b2 ++ rest) filter
        = filter b1 ++ filter b2 ++ Megaify.getReplacements rest filter) := by
  obtain ⟨g0, tail, h1, h2, h3, h4⟩ := getReplacements_segments chunk
  refine ⟨⟨g0, tail, h1, h2, h3 filter⟩, ?_, ?_, ?_, getReplacements_nil filter, ?_⟩
  · intro r hr
    rw [h1] at hr
    obtain ⟨x, hx, rfl⟩ := List.mem_map.mp hr
    exact h4 x hx
  · intro r rest hr
    exact getReplacements_block filter hr rest
  · intro c rest hno
    exact getReplacements_skip filter hno
  · intro b1 b2 rest hb1 hb2
    obtain ⟨a1, a2⟩ := getReplacements_block filter hb1 (b2 ++ rest)
    obtain ⟨c1, c2⟩ := getReplacements_block filter hb2 rest
    rw [List.append_assoc, a1, a2, c1, c2, List.append_assoc]
    exact ⟨rfl, rfl⟩

theorem getReplacements_regions_witness :
    IsBlock "/*<replacement>*/a/*</replacement>*/" ∧
    IsBlock "/*<replacement>*/b/*</replacement>*/" ∧
    (¬ ∃ r tl, IsBlock r ∧
      'x' :: (("/*<replacement>*/a/*</replacement>*/" : Text)
        ++ "/*<replacement>*/b/*</replacement>*/" ++ "y;".toList) = r ++ tl) ∧
    Megaify.filterCalls
        ('x' :: (("/*<replacement>*/a/*</replacement>*/" : Text)
          ++ "/*<replacement>*/b/*</replacement>*/" ++ "y;".toList))
      = ("/*<replacement>*/a/*</replacement>*/" : Text)
        :: ("/*<replacement>*/b/*</replacement>*/" : Text) :: Megaify.filterCalls "y;".toList ∧
    Megaify.getReplacements
        ('x' :: (("/*<replacement>*/a/*</replacement>*/" : Text)
          ++ "/*<replacement>*/b/*</replacement>*/" ++ "y;".toList))
        (fun r => r.take 18)
      = 'x' :: ((fun r : Text => r.take 18) "/*<replacement>*/a/*</replacement>*/"
        ++ (fun r : Text => r.take 18) "/*<replacement>*/b/*</replacement>*/"
        ++ Megaify.getReplacements "y;".toList (fun r => r.take 18)) := by
  have ha : IsBlock "/*<replacement>*/a/*</replacement>*/" :=
    @isBlock_of_matchBlock _ [] (by decide)
  have hb : IsBlock "/*<replacement>*/b/*</replacement>*/" :=
    @isBlock_of_matchBlock _ [] (by decide)
  have hx : ¬ ∃ r tl, IsBlock r ∧
      'x' :: (("/*<replacement>*/a/*</replacement>*/" : Text)
        ++ "/*<replacement>*/b/*</replacement>*/" ++ "y;".toList) = r ++ tl := by
    rintro ⟨r, tl, hr, he⟩
    obtain ⟨k, rfl⟩ := isBlock_head hr
    exact absurd (List.cons.inj he).1 (by decide)
  have h := getReplacements_regions [] (fun r => r.take 18)
  have hskip := h.2.2.2.1 'x'
    (("/*<replacement>*/a/*</replacement>*/" : Text)
      ++ "/*<replacement>*/b/*</replacement>*/" ++ "y;".toList) hx
  have htwo := h.2.2.2.2.2 "/*<replacement>*/a/*</replacement>*/"
    "/*<replacement>*/b/*</replacement>*/" "y;".toList ha hb
  exact ⟨ha, hb, hx, hskip.1.trans htwo.1, hskip.2.trans (congrArg _ htwo.2)⟩

/-- C10: for a block that `getReplacements` hands to the filter of the
`readable-stream` rule, the filter returns the block unchanged exactly when
the block contains none of `debugUtil`, `var asyncWrite =`, `internalUtil`,
`OurUint8Array`; otherwise it returns the snippet of the first of these, in
this order, that the block contains. -/
theorem filter_recognition (self : Megaify) (chunk b : Text)
    (hb : b ∈ Megaify.filterCalls chunk) :
    (self.filter b = b ↔
      ¬ ("debugUtil" : Text) <:+: b ∧ ¬ ("var asyncWrite =" : Text) <:+: b ∧
      ¬ ("internalUtil" : Text) <:+: b ∧ ¬ ("OurUint8Array" : Text) <:+: b) ∧
    (("debugUtil" : Text) <:+: b →
      self.filter b = "var debug = require(\"".toList ++ self.cwd
        ++ "/bundle/utils\").debuglog(\"stream\")".toList) ∧
    (¬ ("debugUtil" : Text) <:+: b → ("var asyncWrite =" : Text) <:+: b →
      self.filter b = "var asyncWrite = require(\"".toList ++ self.cwd
        ++ "/bundle/utils\").nextTick".toList) ∧
    (¬ ("debugUtil" : Text) <:+: b → ¬ ("var asyncWrite =" : Text) <:+: b →
      ("internalUtil" : Text) <:+: b →
      self.filter b = "var deprecate = require(\"".toList ++ self.cwd
        ++ "/bundle/utils\").deprecate".toList) ∧
    (¬ ("debugUtil" : Text) <:+: b → ¬ ("var asyncWrite =" : Text) <:+: b →
      ¬ ("internalUtil" : Text) <:+: b → ("OurUint8Array" : Text) <:+: b →
      self.filter b = "var _isUint8Array=require(\"".toList ++ self.cwd
        ++ "/bundle/utils\").isU8,Buffer=require(\"buffer\").Buffer".toList) := by
  obtain ⟨g0, tail, h1, -, -, h4⟩ := getReplacements_segments chunk
  have hblock : IsBlock b := by
    rw [h1] at hb
    obtain ⟨x, hx, rfl⟩ := List.mem_map.mp hb
    exact h4 x hx
  have e1 : JS.indexOf b ("debugUtil" : Text) > 0 ↔ ("debugUtil" : Text) <:+: b :=
    indexOf_pos_iff (not_prefix_of_isBlock hblock (by decide))
  have e2 : JS.indexOf b ("var asyncWrite =" : Text) > 0 ↔ ("var asyncWrite =" : Text) <:+: b :=
    indexOf_pos_iff (not_prefix_of_isBlock hblock (by decide))
  have e3 : JS.indexOf b ("internalUtil" : Text) > 0 ↔ ("internalUtil" : Text) <:+: b :=
    indexOf_pos_iff (not_prefix_of_isBlock hblock (by decide))
  have e4 : JS.indexOf b ("OurUint8Array" : Text) > 0 ↔ ("OurUint8Array" : Text) <:+: b :=
    indexOf_pos_iff (not_prefix_of_isBlock hblock (by decide))
  have hv : ∀ k : Text, ('v' :: k) ≠ b := fun k => ne_of_isBlock hblock (by decide)
  have s1 : ("debugUtil" : Text) <:+: b →
      self.filter b = "var debug = require(\"".toList ++ self.cwd
        ++ "/bundle/utils\").debuglog(\"stream\")".toList := by
    intro c1
    simp only [Megaify.filter, if_pos (e1.mpr c1), Megaify.getUtilsMod, if_true]
    simp [List.append_assoc]
  have s2 : ¬ ("debugUtil" : Text) <:+: b → ("var asyncWrite =" : Text) <:+: b →
      self.filter b = "var asyncWrite = require(\"".toList ++ self.cwd
        ++ "/bundle/utils\").nextTick".toList := by
    intro c1 c2
    simp only [Megaify.filter, if_neg (mt e1.mp c1), if_pos (e2.mpr c2), Megaify.getUtilsMod,
      if_true]
    simp [List.append_assoc]
  have s3 : ¬ ("debugUtil" : Text) <:+: b → ¬ ("var asyncWrite =" : Text) <:+: b →
      ("internalUtil" : Text) <:+: b →
      self.filter b = "var deprecate = require(\"".toList ++ self.cwd
        ++ "/bundle/utils\").deprecate".toList := by
    intro c1 c2 c3
    simp only [Megaify.filter, if_neg (mt e1.mp c1), if_neg (mt e2.mp c2), if_pos (e3.mpr c3),
      Megaify.getUtilsMod, if_true]
    simp [List.append_assoc]
  have s4 : ¬ ("debugUtil" : Text) <:+: b → ¬ ("var asyncWrite =" : Text) <:+: b →
      ¬ ("internalUtil" : Text) <:+: b → ("OurUint8Array" : Text) <:+: b →
      self.filter b = "var _isUint8Array=require(\"".toList ++ self.cwd
        ++ "/bundle/utils\").isU8,Buffer=require(\"buffer\").Buffer".toList := by
    intro c1 c2 c3 c4
    simp only [Megaify.filter, if_neg (mt e1.mp c1), if_neg (mt e2.mp c2),
      if_neg (mt e3.mp c3), if_pos (e4.mpr c4), Megaify.getUtilsMod, if_true]
    simp [List.append_assoc]
  refine ⟨?_, s1, s2, s3, s4⟩
  constructor
  · intro hfb
    by_cases c1 : ("debugUtil" : Text) <:+: b
    · exact absurd ((s1 c1).symm.trans hfb) (hv _)
    by_cases c2 : ("var asyncWrite =" : Text) <:+: b
    · exact absurd ((s2 c1 c2).symm.trans hfb) (hv _)
    by_cases c3 : ("internalUtil" : Text) <:+: b
    · exact absurd ((s3 c1 c2 c3).symm.trans hfb) (hv _)
    by_cases c4 : ("OurUint8Array" : Text) <:+: b
    · exact absurd ((s4 c1 c2 c3 c4).symm.trans hfb) (hv _)
    exact ⟨c1, c2, c3, c4⟩
  · rintro ⟨c1, c2, c3, c4⟩
    simp only [Megaify.filter, if_neg (mt e1.mp c1), if_neg (mt e2.mp c2),
      if_neg (mt e3.mp c3), if_neg (mt e4.mp c4)]

theorem filter_recognition_witness :
    ("/*<replacement>*/var u = internalUtil;/*</replacement>*/" : Text) ∈
      Megaify.filterCalls "a;/*<replacement>*/var u = internalUtil;/*</replacement>*/b;" ∧
    Megaify.filter
        { cwd := "/w", filesize := 60, filename := "../readable-stream/a.js", pushed := [] }
        "/*<replacement>*/var u = internalUtil;/*</replacement>*/"
      = "var deprecate = require(\"".toList ++ ("/w" : Text)
        ++ "/bundle/utils\").deprecate".toList :=
  ⟨by decide,
    (filter_recognition
      { cwd := "/w", filesize := 60, filename := "../readable-stream/a.js", pushed := [] }
      "a;/*<replacement>*/var u = internalUtil;/*</replacement>*/b;"
      "/*<replacement>*/var u = internalUtil;/*</replacement>*/" (by decide)).2.2.2.1
      (by decide) (by decide) (by decide)⟩

/-! ## The rewrite as a sequence of steps -/

theorem rewrite_eq_steps (self : Megaify) (chunk : Text) :
    self.rewrite chunk = self.steps.foldl (fun c st => st.apply c) chunk := by
  by_cases h1 : JS.indexOf self.filename "/mp4-box-encoding/index.js" > 0 <;>
  by_cases h2 : JS.indexOf self.filename "/pump/index.js" > 0 <;>
  by_cases h3 : JS.indexOf self.filename "readable-stream" > 0 <;>
  by_cases h4 : JS.indexOf self.filename "mp4-stream/encode.js" > 0 <;>
  by_cases h5 : JS.indexOf self.filename "/uint64be/index.js" > 0 <;>
  simp only [Megaify.rewrite, Megaify.steps, h1, h2, h3, h4, h5, if_true, if_false,
    List.foldl_append, List.foldl_cons, List.foldl_nil, Step.apply,
    Megaify.ruleMp4BoxEncoding, Megaify.rulePump, Megaify.ruleReadableStream,
    Megaify.ruleMp4StreamEncode, Megaify.ruleUint64be, Megaify.universal]

/-! ## Literal substitutions -/

theorem rewrite_split_of_mem (self : Megaify) (chunk : Text) {st : Step}
    (h : st ∈ self.steps) :
    ∃ before after, self.steps = before ++ st :: after ∧
      self.rewrite chunk
        = after.foldl (fun c st => st.apply c)
            (st.apply (before.foldl (fun c st => st.apply c) chunk)) := by
  obtain ⟨before, after, hsplit⟩ := List.append_of_mem h
  refine ⟨before, after, hsplit, ?_⟩
  rw [rewrite_eq_steps, hsplit, List.foldl_append, List.foldl_cons]

/-- A path that triggers a rule puts the rule's literal substitutions among
the steps of the rewrite. -/
theorem steps_mem_of_trigger (self : Megaify) :
    ∀ rule ∈ onceRules, JS.indexOf self.filename rule.1 > 0 →
      Step.literal rule.2.1 rule.2.2 ∈ self.steps := by
  intro rule hrule htrig
  simp only [onceRules, List.mem_cons, List.mem_singleton, List.not_mem_nil, or_false] at hrule
  rcases hrule with rfl | rfl | rfl | rfl | rfl | rfl | rfl | rfl <;>
  · dsimp only at htrig ⊢
    unfold Megaify.steps
    rw [if_pos htrig]
    simp only [List.mem_append, List.mem_cons, true_or, or_true]

theorem safeBuffer_mem_steps (self : Megaify) :
    Step.literal "require('safe-buffer').Buffer" "require('buffer').Buffer" ∈ self.steps := by
  unfold Megaify.steps
  simp only [List.mem_append, List.mem_cons, true_or, or_true]

/-- Each of the listed literal substitutions removes its target from a text
that holds it at exactly one position, and finds nothing when applied again. -/
theorem onceRules_once :
    ∀ rule ∈ onceRules ++
        [(([] : Text), (("require('safe-buffer').Buffer" : Text),
          ("require('buffer').Buffer" : Text)))],
      ∀ text, JS.occurrences rule.2.1 text = 1 →
        ¬ rule.2.1 <:+: JS.replace text rule.2.1 rule.2.2 ∧
        JS.replace (JS.replace text rule.2.1 rule.2.2) rule.2.1 rule.2.2
          = JS.replace text rule.2.1 rule.2.2 := by
  intro rule hrule text h
  simp only [onceRules, List.cons_append, List.nil_append, List.mem_cons, List.mem_singleton,
    List.not_mem_nil, or_false] at hrule
  rcases hrule with rfl | rfl | rfl | rfl | rfl | rfl | rfl | rfl | rfl <;>
  · dsimp only at h ⊢
    exact JS.replace_once_noNew (by decide) (by decide) (by decide) h

/-- C7 (as stated, refuted): for a path that triggers the rule and a text that
holds the target literal, the rewritten text still holds the literal
(1) when the text holds it twice (`UINT_32_MAX = 0xffffffff`); and, with the
literal at exactly one position in the text,
(2) when the replacement ends in `$&` (`function noop () {}`,
`var isFS = function`);
(3) when the replacement is empty and the text around the removed literal
joins to the literal (`var fs = require('fs')`, the `core-util-is` import, the
`dest !== process.stdout` test);
(4) when the replacement is an end of the literal and the text before it
supplies the beginning (`util.inherits(`, `internalUtil.deprecate(`), or the
replacement starts with an end of the literal (`_uint8ArrayToBuffer`);
(5) when the replacement holds the working directory (`require('inherits')`);
(6) when a later step of the same rewrite makes the literal again
(`util.inherits =`, gone right after its own substitution, is put together by
the removal of the `dest !== process.stdout` test). -/
theorem literal_rule_keeps_target :
    (JS.indexOf ("../node_modules/uint64be/index.js" : Text) "/uint64be/index.js" > 0 ∧
      ("UINT_32_MAX = 0xffffffff" : Text) <:+:
        Megaify.rewrite
          { cwd := "/w", filesize := 49, filename := "../node_modules/uint64be/index.js",
            pushed := [] }
          "UINT_32_MAX = 0xffffffff;UINT_32_MAX = 0xffffffff") ∧
    (JS.indexOf ("../node_modules/mp4-stream/encode.js" : Text) "mp4-stream/encode.js" > 0 ∧
      JS.occurrences "function noop () \x7b\x7d" ("function noop () \x7b\x7d" : Text) = 1 ∧
      ("function noop () \x7b\x7d" : Text) <:+:
        Megaify.rewrite
          { cwd := "/w", filesize := 19, filename := "../node_modules/mp4-stream/encode.js",
            pushed := [] }
          "function noop () \x7b\x7d") ∧
    (JS.indexOf ("../node_modules/pump/index.js" : Text) "/pump/index.js" > 0 ∧
      JS.occurrences "var isFS = function" ("var isFS = function" : Text) = 1 ∧
      ("var isFS = function" : Text) <:+:
        Megaify.rewrite
          { cwd := "/w", filesize := 19, filename := "../node_modules/pump/index.js",
            pushed := [] }
          "var isFS = function") ∧
    (JS.occurrences "var fs = require('fs')"
        ("var fs = requvar fs = require('fs')ire('fs')" : Text) = 1 ∧
      ("var fs = require('fs')" : Text) <:+:
        Megaify.rewrite
          { cwd := "/w", filesize := 44, filename := "../node_modules/pump/index.js",
            pushed := [] }
          "var fs = requvar fs = require('fs')ire('fs')") ∧
    (JS.indexOf ("../node_modules/readable-stream/a.js" : Text) "readable-stream" > 0 ∧
      JS.occurrences "var util = require('core-util-is');"
        ("var util = requvar util = require('core-util-is');ire('core-util-is');" : Text) = 1 ∧
      ("var util = require('core-util-is');" : Text) <:+:
        Megaify.rewrite
          { cwd := "/w", filesize := 70, filename := "../node_modules/readable-stream/a.js",
            pushed := [] }
          "var util = requvar util = require('core-util-is');ire('core-util-is');") ∧
    (JS.occurrences " && dest !== process.stdout && dest !== process.stderr"
        ((" && dest && dest !== process.stdout && dest !== process.stderr"
          ++ " !== process.stdout && dest !== process.stderr" : String) : Text) = 1 ∧
      (" && dest !== process.stdout && dest !== process.stderr" : Text) <:+:
        Megaify.rewrite
          { cwd := "/w", filesize := 108, filename := "../node_modules/readable-stream/a.js",
            pushed := [] }
          ((" && dest && dest !== process.stdout && dest !== process.stderr"
            ++ " !== process.stdout && dest !== process.stderr" : String) : Text)) ∧
    (JS.occurrences "util.inherits(" ("util.util.inherits(A, B)" : Text) = 1 ∧
      ("util.inherits(" : Text) <:+:
        Megaify.rewrite
          { cwd := "/w", filesize := 24, filename := "../node_modules/readable-stream/a.js",
            pushed := [] }
          "util.util.inherits(A, B)") ∧
    (JS.occurrences "internalUtil.deprecate("
        ("internalUtil.internalUtil.deprecate(f)" : Text) = 1 ∧
      ("internalUtil.deprecate(" : Text) <:+:
        Megaify.rewrite
          { cwd := "/w", filesize := 38, filename := "../node_modules/readable-stream/a.js",
            pushed := [] }
          "internalUtil.internalUtil.deprecate(f)") ∧
    (JS.occurrences "_uint8ArrayToBuffer" ("_uint8ArrayTo_uint8ArrayToBuffer(x)" : Text) = 1 ∧
      ("_uint8ArrayToBuffer" : Text) <:+:
        Megaify.rewrite
          { cwd := "/w", filesize := 35, filename := "../node_modules/readable-stream/a.js",
            pushed := [] }
          "_uint8ArrayTo_uint8ArrayToBuffer(x)") ∧
    (JS.occurrences "require('inherits')" ("var i = require('inherits')" : Text) = 1 ∧
      ("require('inherits')" : Text) <:+:
        Megaify.rewrite
          { cwd := "/a$&b", filesize := 27, filename := "../bundle/main.js", pushed := [] }
          "var i = require('inherits')") ∧
    (JS.occurrences "util.inherits ="
        (("util.inherits = x; util.inhe && dest !== process.stdout"
          ++ " && dest !== process.stderrrits =" : String) : Text) = 1 ∧
      ¬ ("util.inherits =" : Text) <:+:
        JS.replace
          (("util.inherits = x; util.inhe && dest !== process.stdout"
            ++ " && dest !== process.stderrrits =" : String) : Text)
          "util.inherits =" "var inherits =" ∧
      ("util.inherits =" : Text) <:+:
        Megaify.rewrite
          { cwd := "/w", filesize := 88, filename := "../node_modules/readable-stream/a.js",
            pushed := [] }
          (("util.inherits = x; util.inhe && dest !== process.stdout"
            ++ " && dest !== process.stderrrits =" : String) : Text)) := by
  refine ⟨⟨by decide, by decide⟩, ⟨by decide, by decide, by decide⟩,
    ⟨by decide, by decide, by decide⟩, ⟨by decide, by decide⟩,
    ⟨by decide, by decide, by decide⟩, ⟨by decide, by decide⟩, ⟨by decide, by decide⟩,
    ⟨by decide, by decide⟩, ⟨by decide, by decide⟩, ⟨by decide, by decide⟩,
    ⟨by decide, by decide, by decide⟩⟩

/-- C7 (amended): the rewrite is the sequence of its steps, and for each of
the literal substitutions `Box = exports`, `'Data too short'`,
`var streams = Array.prototype.slice.call(arguments)`, `isFS(stream)`,
`util.inherits =`, `require('isarray')`, `return process.nextTick`,
`UINT_32_MAX = 0xffffffff` (under their triggers) and
`require('safe-buffer').Buffer` (in every module): for every path that
triggers the rule the substitution is one of these steps, applied to the text
the steps before it produce; and for every text that holds the target literal
at exactly one position, the text right after the substitution no longer
holds the literal, and the same substitution again changes nothing. -/
theorem literal_rule_once (self : Megaify) (chunk : Text) :
    self.rewrite chunk = self.steps.foldl (fun c st => st.apply c) chunk ∧
    (∀ rule ∈ onceRules, JS.indexOf self.filename rule.1 > 0 →
      ∃ before after, self.steps = before ++ Step.literal rule.2.1 rule.2.2 :: after ∧
        self.rewrite chunk
          = after.foldl (fun c st => st.apply c)
              (JS.replace (before.foldl (fun c st => st.apply c) chunk) rule.2.1 rule.2.2)) ∧
    (∃ before after,
      self.steps
        = before
          ++ Step.literal "require('safe-buffer').Buffer" "require('buffer').Buffer" :: after ∧
      self.rewrite chunk
        = after.foldl (fun c st => st.apply c)
            (JS.replace (before.foldl (fun c st => st.apply c) chunk)
              "require('safe-buffer').Buffer" "require('buffer').Buffer")) ∧
    (∀ rule ∈ onceRules ++
        [(([] : Text), (("require('safe-buffer').Buffer" : Text),
          ("require('buffer').Buffer" : Text)))],
      ∀ text, JS.occurrences rule.2.1 text = 1 →
        ¬ rule.2.1 <:+: JS.replace text rule.2.1 rule.2.2 ∧
        JS.replace (JS.replace text rule.2.1 rule.2.2) rule.2.1 rule.2.2
          = JS.replace text rule.2.1 rule.2.2) := by
  refine ⟨rewrite_eq_steps self chunk, ?_, ?_, onceRules_once⟩
  · intro rule hrule htrig
    exact rewrite_split_of_mem self chunk (steps_mem_of_trigger self rule hrule htrig)
  · exact rewrite_split_of_mem self chunk (safeBuffer_mem_steps self)

theorem literal_rule_once_witness :
    ((("/uint64be/index.js" : Text),
        (("UINT_32_MAX = 0xffffffff" : Text), ("UINT_32_MAX = Math.pow(2, 32)" : Text)))
      ∈ onceRules ∧
      JS.indexOf ("../node_modules/uint64be/index.js" : Text) "/uint64be/index.js" > 0 ∧
      JS.occurrences "UINT_32_MAX = 0xffffffff" ("var UINT_32_MAX = 0xffffffff" : Text) = 1) ∧
    (∃ before after,
      Megaify.steps
          { cwd := "/w", filesize := 28, filename := "../node_modules/uint64be/index.js",
            pushed := [] }
        = before
          ++ Step.literal "UINT_32_MAX = 0xffffffff" "UINT_32_MAX = Math.pow(2, 32)" :: after ∧
      Megaify.rewrite
          { cwd := "/w", filesize := 28, filename := "../node_modules/uint64be/index.js",
            pushed := [] }
          "var UINT_32_MAX = 0xffffffff"
        = after.foldl (fun c st => st.apply c)
            (JS.replace (before.foldl (fun c st => st.apply c) "var UINT_32_MAX = 0xffffffff")
              "UINT_32_MAX = 0xffffffff" "UINT_32_MAX = Math.pow(2, 32)")) ∧
    (¬ ("UINT_32_MAX = 0xffffffff" : Text) <:+:
        JS.replace "var UINT_32_MAX = 0xffffffff" "UINT_32_MAX = 0xffffffff"
          "UINT_32_MAX = Math.pow(2, 32)" ∧
      JS.replace
          (JS.replace "var UINT_32_MAX = 0xffffffff" "UINT_32_MAX = 0xffffffff"
            "UINT_32_MAX = Math.pow(2, 32)")
          "UINT_32_MAX = 0xffffffff" "UINT_32_MAX = Math.pow(2, 32)"
        = JS.replace "var UINT_32_MAX = 0xffffffff" "UINT_32_MAX = 0xffffffff"
            "UINT_32_MAX = Math.pow(2, 32)") := by
  have hmem : ((("/uint64be/index.js" : Text),
      (("UINT_32_MAX = 0xffffffff" : Text), ("UINT_32_MAX = Math.pow(2, 32)" : Text)))
      ∈ onceRules) := by
    simp [onceRules]
  have h := literal_rule_once
    { cwd := "/w", filesize := 28, filename := "../node_modules/uint64be/index.js",
      pushed := [] }
    "var UINT_32_MAX = 0xffffffff"
  exact ⟨⟨hmem, by decide, by decide⟩, h.2.1 _ hmem (by decide),
    h.2.2.2 _ (List.mem_append_left _ hmem) "var UINT_32_MAX = 0xffffffff" (by decide)⟩

/-! ## Bundle finisher: path scrubbing -/

theorem scrub_eq (cwd buf : Text) :
    scrub cwd buf = JS.replaceAll (JS.literal cwd) (fun _ _ _ => []) buf := by
  simp only [scrub, JS.unescape_escapeNonWord]
  rfl

/-- C3 (as stated, refuted): with the working directory `/ab` and the bundle
text `/a/abb`, which contains the path once, the text written to standard
output is the header followed by `/ab`: it still contains the path. -/
theorem makeBundle_output_contains_path :
    ("/ab" : Text) <:+: ("/a/abb" : Text) ∧
    (makeBundle
        { cwd := "/ab", version := "1.0.0", username := some "u",
          isoNow := "2020-01-02T03:04:05.678Z", elapsed := 5 }
        none "/a/abb" Process.init).stdout
      = [header
          { cwd := "/ab", version := "1.0.0", username := some "u",
            isoNow := "2020-01-02T03:04:05.678Z", elapsed := 5 } ++ ("/ab" : Text)] ∧
    ("/ab" : Text) <:+:
      header
          { cwd := "/ab", version := "1.0.0", username := some "u",
            isoNow := "2020-01-02T03:04:05.678Z", elapsed := 5 } ++ ("/ab" : Text) := by
  refine ⟨by decide, by decide, ?_⟩
  exact ⟨header
      { cwd := "/ab", version := "1.0.0", username := some "u",
        isoNow := "2020-01-02T03:04:05.678Z", elapsed := 5 }, [], by simp⟩

/-- The scrub at a position where the path begins: the path is dropped and the
pass goes on after it. -/
theorem scrub_match {cwd : Text} (hP : cwd ≠ []) (rest : Text) :
    scrub cwd (cwd ++ rest) = scrub cwd rest := by
  have hm : JS.literal cwd (cwd ++ rest) = some cwd.length := by
    simp [JS.literal, List.isPrefixOf_iff_prefix]
  have h := (JS.scan_match (JS.literal cwd) (JS.literal_wf hP) hm).2 (fun _ => [])
  simp only [List.take_left, List.drop_left, List.nil_append] at h
  rw [scrub_eq, scrub_eq]
  exact h

/-- The scrub at a position where the path does not begin: the character is
kept and the pass goes on with the next one. -/
theorem scrub_skip {cwd : Text} (hP : cwd ≠ []) {c : Char} {rest : Text}
    (h : ¬ cwd <+: c :: rest) : scrub cwd (c :: rest) = c :: scrub cwd rest := by
  have hm : JS.literal cwd (c :: rest) = none := by
    simp only [JS.literal]
    rw [if_neg]
    exact fun hp => h (List.isPrefixOf_iff_prefix.mp hp)
  have h2 := (JS.scan_skip (JS.literal cwd) (JS.literal_wf hP) hm).2 (fun _ => [])
  rw [scrub_eq, scrub_eq]
  exact h2

theorem scrub_nil {cwd : Text} (hP : cwd ≠ []) : scrub cwd [] = [] := by
  rw [scrub_eq]
  exact (JS.scan_nil (JS.literal cwd) (JS.literal_wf hP)).2 _

/-- C3 (amended): for a non-empty working-directory path, what `makeBundle`
writes to standard output is the header followed by the result of one pass
over the bundle text from left to right: where the path begins, the path is
dropped and the pass goes on after it; any other character is kept and the
pass goes on with the next one. So the bundle text is a first gap followed,
for every dropped match, by the path and the gap after it; no gap contains the
path; and the output is the header followed by the gaps put together. -/
theorem makeBundle_scrubs_matches (env : Env) (buf : Text) (p : Process)
    (hP : env.cwd ≠ []) :
    (makeBundle env none buf p).stdout = p.stdout ++ [header env ++ scrub env.cwd buf] ∧
    (∀ rest, scrub env.cwd (env.cwd ++ rest) = scrub env.cwd rest) ∧
    (∀ c rest, ¬ env.cwd <+: c :: rest →
      scrub env.cwd (c :: rest) = c :: scrub env.cwd rest) ∧
    scrub env.cwd [] = [] ∧
    ∃ (g0 : Text) (gs : List Text),
      buf = g0 ++ (gs.map fun g => env.cwd ++ g).flatten ∧
      (¬ env.cwd <:+: g0 ∧ ∀ g ∈ gs, ¬ env.cwd <:+: g) ∧
      scrub env.cwd buf = g0 ++ gs.flatten ∧
      (makeBundle env none buf p).stdout = p.stdout ++ [header env ++ (g0 ++ gs.flatten)] := by
  obtain ⟨g0, gs, h1, h2, h3, h4⟩ := JS.replaceAll_literal_empty hP buf
  refine ⟨?_, fun rest => scrub_match hP rest, fun c rest h => scrub_skip hP h, scrub_nil hP,
    g0, gs, h1, ⟨h3, h4⟩, ?_, ?_⟩
  · simp only [makeBundle, Process.writeOut, Process.writeErr]
  · rw [scrub_eq, h2]
  · simp only [makeBundle, Process.writeOut, Process.writeErr, scrub_eq, h2]

theorem makeBundle_scrubs_matches_witness :
    ("/x/y/x" : Text) ≠ [] ∧
    (makeBundle
        { cwd := "/x/y/x", version := "1.0.0", username := none,
          isoNow := "2020-01-02T03:04:05.678Z", elapsed := 5 }
        none "A/x/y/x/y/xB" Process.init).stdout
      = Process.init.stdout ++
        [header
            { cwd := "/x/y/x", version := "1.0.0", username := none,
              isoNow := "2020-01-02T03:04:05.678Z", elapsed := 5 }
          ++ scrub "/x/y/x" "A/x/y/x/y/xB"] ∧
    ¬ ("/x/y/x" : Text) <+: 'A' :: ("/x/y/x/y/xB" : Text) ∧
    scrub "/x/y/x" ('A' :: ("/x/y/x/y/xB" : Text)) = 'A' :: scrub "/x/y/x" ("/x/y/x/y/xB" : Text) ∧
    scrub "/x/y/x" (("/x/y/x" : Text) ++ ("/y/xB" : Text)) = scrub "/x/y/x" ("/y/xB" : Text) := by
  have h := makeBundle_scrubs_matches
    { cwd := "/x/y/x", version := "1.0.0", username := none,
      isoNow := "2020-01-02T03:04:05.678Z", elapsed := 5 }
    "A/x/y/x/y/xB" Process.init (by decide)
  exact ⟨by decide, h.1, by decide, h.2.2.1 'A' "/x/y/x/y/xB" (by decide), h.2.1 "/y/xB"⟩

/-! ## Bundle finisher: outcome and header -/

/-- C11: when the bundler reports an error, `makeBundle` writes nothing to
standard output, writes the error's message followed by a newline to the
diagnostic channel and exits with status 1; when it reports none, `makeBundle`
writes to standard output once, the header followed by the scrubbed text, and
exits with status 0. -/
theorem makeBundle_outcome (env : Env) (buf : Text) (p : Process) :
    (∀ message : Text,
      (makeBundle env (some message) buf p).stdout = p.stdout ∧
      (makeBundle env (some message) buf p).stderr = p.stderr ++ [message ++ "\n".toList] ∧
      (makeBundle env (some message) buf p).exit = some 1) ∧
    ((makeBundle env none buf p).stdout = p.stdout ++ [header env ++ scrub env.cwd buf] ∧
      (makeBundle env none buf p).exit = some 0) := by
  constructor
  · intro message
    simp [makeBundle, Process.writeErr]
  · simp [makeBundle, Process.writeOut, Process.writeErr]

namespace JS

theorem find_of_prefix {pat s : Text} (h : pat <+: s) : find pat s = some 0 := by
  cases s with
  | nil => simp [find, List.isPrefixOf_iff_prefix.mpr h]
  | cons c s => simp [find, List.isPrefixOf_iff_prefix.mpr h]

/-- The first occurrence of a character that the text before it does not
contain. -/
theorem find_singleton {c : Char} : ∀ {pre : Text} (post : Text), c ∉ pre →
    find [c] (pre ++ c :: post) = some pre.length
  | [], post, _ => by
    exact find_of_prefix ⟨post, rfl⟩
  | a :: pre, post, h => by
    have hne : a ≠ c := fun he => h (by simp [he])
    have hnot : ¬ [c] <+: a :: (pre ++ c :: post) := by
      intro hp
      exact hne (List.cons_prefix_cons.mp hp).1.symm
    have hb : List.isPrefixOf [c] (a :: (pre ++ c :: post)) = false := by
      cases hh : List.isPrefixOf [c] (a :: (pre ++ c :: post)) with
      | false => rfl
      | true => exact absurd (List.isPrefixOf_iff_prefix.mp hh) hnot
    have ih := find_singleton post (fun hm => h (List.mem_cons_of_mem _ hm))
    show find [c] (a :: (pre ++ c :: post)) = some (pre.length + 1)
    rw [find, hb, ih]
    rfl

/-- The result of a replacement, given where the first occurrence is. -/
theorem replace_at {pat repl pre post : Text}
    (hfirst : find pat (pre ++ pat ++ post) = some pre.length) :
    replace (pre ++ pat ++ post) pat repl
      = pre ++ getSubstitution pat pre post repl ++ post := by
  have ht : (pre ++ pat ++ post).take pre.length = pre := by
    rw [List.append_assoc, List.take_left]
  have hd : (pre ++ pat ++ post).drop (pre.length + pat.length) = post := by
    rw [← List.length_append, List.drop_left]
  simp only [replace, hfirst, ht, hd]

end JS

theorem digit_ne {c : Char} (h : c.isDigit = true) :
    c ≠ '-' ∧ c ≠ 'T' ∧ c ≠ '.' := by
  refine ⟨?_, ?_, ?_⟩ <;>
  · rintro rfl
    exact absurd h (by decide)

theorem map_dash_digits {l : Text} (h : ∀ c ∈ l, c.isDigit = true) :
    l.map (fun c => if c = '-' then '/' else c) = l := by
  induction l with
  | nil => rfl
  | cons a l ih =>
    have ha := (digit_ne (h a (List.mem_cons_self _ _))).1
    simp only [List.map_cons, if_neg ha]
    rw [ih (fun c hc => h c (List.mem_cons_of_mem _ hc))]

theorem takeWhile_stop {p : Char → Bool} {c : Char} (hc : p c = false) :
    ∀ {a : Text} (b : Text), (∀ x ∈ a, p x = true) → (a ++ c :: b).takeWhile p = a
  | [], b, _ => by simp [List.takeWhile, hc]
  | x :: a, b, h => by
    have hx := h x (List.mem_cons_self _ _)
    have ih := takeWhile_stop hc b (fun y hy => h y (List.mem_cons_of_mem _ hy))
    show List.takeWhile p (x :: (a ++ c :: b)) = x :: a
    rw [List.takeWhile_cons, hx, ih]
    rfl

/-- The timestamp computed from a text made of digit fields in the shape
`YYYY-MM-DDTHH:MM:SS.sssZ`: the dashes are slashes, the `T` is a space and
everything from the first dot on is dropped. -/
theorem headerDate_shape (y mo d h mi s ms : Text)
    (hy : ∀ c ∈ y, c.isDigit = true) (hmo : ∀ c ∈ mo, c.isDigit = true)
    (hd : ∀ c ∈ d, c.isDigit = true) (hh : ∀ c ∈ h, c.isDigit = true)
    (hmi : ∀ c ∈ mi, c.isDigit = true) (hs : ∀ c ∈ s, c.isDigit = true) :
    headerDate
        (y ++ ['-'] ++ mo ++ ['-'] ++ d ++ ['T'] ++ h ++ [':'] ++ mi ++ [':'] ++ s ++ ['.']
          ++ ms ++ ['Z'])
      = y ++ ['/'] ++ mo ++ ['/'] ++ d ++ [' '] ++ h ++ [':'] ++ mi ++ [':'] ++ s ∧
    '-' ∉ y ++ ['/'] ++ mo ++ ['/'] ++ d ++ [' '] ++ h ++ [':'] ++ mi ++ [':'] ++ s ∧
    'T' ∉ y ++ ['/'] ++ mo ++ ['/'] ++ d ++ [' '] ++ h ++ [':'] ++ mi ++ [':'] ++ s ∧
    '.' ∉ y ++ ['/'] ++ mo ++ ['/'] ++ d ++ [' '] ++ h ++ [':'] ++ mi ++ [':'] ++ s := by
  have nd : ∀ {l : Text}, (∀ c ∈ l, c.isDigit = true) → '-' ∉ l ∧ 'T' ∉ l ∧ '.' ∉ l := by
    intro l hl
    exact ⟨fun hm => (digit_ne (hl _ hm)).1 rfl, fun hm => (digit_ne (hl _ hm)).2.1 rfl,
      fun hm => (digit_ne (hl _ hm)).2.2 rfl⟩
  refine ⟨?_, ?_, ?_, ?_⟩
  · -- the dashes
    have hmap : (y ++ ['-'] ++ mo ++ ['-'] ++ d ++ ['T'] ++ h ++ [':'] ++ mi ++ [':'] ++ s ++ ['.']
          ++ ms ++ ['Z']).map (fun c => if c = '-' then '/' else c)
        = (y ++ ['/'] ++ mo ++ ['/'] ++ d) ++ ['T']
          ++ (h ++ [':'] ++ mi ++ [':'] ++ s ++ ['.']
            ++ ms.map (fun c => if c = '-' then '/' else c) ++ ['Z']) := by
      simp only [List.map_append, map_dash_digits hy, map_dash_digits hmo, map_dash_digits hd,
        map_dash_digits hh, map_dash_digits hmi, map_dash_digits hs, List.map_cons,
        List.map_nil, List.append_assoc]
      rfl
    -- the `T`
    have hT : 'T' ∉ y ++ ['/'] ++ mo ++ ['/'] ++ d := by
      simp only [List.mem_append, List.mem_singleton, not_or]
      exact ⟨⟨⟨⟨(nd hy).2.1, by decide⟩, (nd hmo).2.1⟩, by decide⟩, (nd hd).2.1⟩
    have hfind := JS.find_singleton
      (h ++ [':'] ++ mi ++ [':'] ++ s ++ ['.']
        ++ ms.map (fun c => if c = '-' then '/' else c) ++ ['Z']) hT
    have hrep := @JS.replace_at ['T'] [' '] (y ++ ['/'] ++ mo ++ ['/'] ++ d)
      (h ++ [':'] ++ mi ++ [':'] ++ s ++ ['.']
        ++ ms.map (fun c => if c = '-' then '/' else c) ++ ['Z'])
      (by simpa [List.append_assoc] using hfind)
    -- the dot
    have hdot : ∀ x ∈ y ++ ['/'] ++ mo ++ ['/'] ++ d ++ [' '] ++ h ++ [':'] ++ mi ++ [':'] ++ s,
        (fun c : Char => c != '.') x = true := by
      intro x hx
      simp only [List.mem_append, List.mem_singleton] at hx
      have hne : x ≠ '.' := by
        rcases hx with (((((((((hx | hx) | hx) | hx) | hx) | hx) | hx) | hx) | hx) | hx) | hx
        · exact (digit_ne (hy x hx)).2.2
        · subst hx; decide
        · exact (digit_ne (hmo x hx)).2.2
        · subst hx; decide
        · exact (digit_ne (hd x hx)).2.2
        · subst hx; decide
        · exact (digit_ne (hh x hx)).2.2
        · subst hx; decide
        · exact (digit_ne (hmi x hx)).2.2
        · subst hx; decide
        · exact (digit_ne (hs x hx)).2.2
      simpa using hne
    have hstop := takeWhile_stop (p := fun c : Char => c != '.') (c := '.') (by decide)
      (ms.map (fun c => if c = '-' then '/' else c) ++ ['Z']) hdot
    simp only [headerDate]
    rw [hmap]
    have hTs : (("T" : String) : Text) = ['T'] := rfl
    have hSs : ((" " : String) : Text) = [' '] := rfl
    rw [hTs, hSs, hrep]
    have hsub : JS.getSubstitution ['T'] (y ++ ['/'] ++ mo ++ ['/'] ++ d)
        (h ++ [':'] ++ mi ++ [':'] ++ s ++ ['.']
          ++ ms.map (fun c => if c = '-' then '/' else c) ++ ['Z']) [' '] = [' '] := by
      simp [JS.getSubstitution]
    rw [hsub]
    simpa [List.append_assoc] using hstop
  · simp only [List.mem_append, List.mem_singleton, not_or]
    exact ⟨⟨⟨⟨⟨⟨⟨⟨⟨⟨(nd hy).1, by decide⟩, (nd hmo).1⟩, by decide⟩, (nd hd).1⟩, by decide⟩,
      (nd hh).1⟩, by decide⟩, (nd hmi).1⟩, by decide⟩, (nd hs).1⟩
  · simp only [List.mem_append, List.mem_singleton, not_or]
    exact ⟨⟨⟨⟨⟨⟨⟨⟨⟨⟨(nd hy).2.1, by decide⟩, (nd hmo).2.1⟩, by decide⟩, (nd hd).2.1⟩,
      by decide⟩, (nd hh).2.1⟩, by decide⟩, (nd hmi).2.1⟩, by decide⟩, (nd hs).2.1⟩
  · simp only [List.mem_append, List.mem_singleton, not_or]
    exact ⟨⟨⟨⟨⟨⟨⟨⟨⟨⟨(nd hy).2.2, by decide⟩, (nd hmo).2.2⟩, by decide⟩, (nd hd).2.2⟩,
      by decide⟩, (nd hh).2.2⟩, by decide⟩, (nd hmi).2.2⟩, by decide⟩, (nd hs).2.2⟩

/-- C12: when the clock's ISO timestamp is made of digit fields in the shape
`YYYY-MM-DDTHH:MM:SS.sssZ`, the header that `makeBundle` puts in front of the
bundle carries, between the version and the user, the timestamp
`YYYY/MM/DD HH:MM:SS`: the dashes are slashes, the `T` is a space, everything
from the first dot on is dropped, and it contains no `-`, no `T` and no `.`. -/
theorem header_timestamp (env : Env) (buf : Text) (p : Process) (y mo d h mi s ms : Text)
    (hy : ∀ c ∈ y, c.isDigit = true) (hmo : ∀ c ∈ mo, c.isDigit = true)
    (hd : ∀ c ∈ d, c.isDigit = true) (hh : ∀ c ∈ h, c.isDigit = true)
    (hmi : ∀ c ∈ mi, c.isDigit = true) (hs : ∀ c ∈ s, c.isDigit = true)
    (hiso : env.isoNow
      = y ++ ['-'] ++ mo ++ ['-'] ++ d ++ ['T'] ++ h ++ [':'] ++ mi ++ [':'] ++ s ++ ['.']
        ++ ms ++ ['Z']) :
    header env
      = "/**\n".toList ++ " * This file is automatically generated. Do not edit it.\n".toList
        ++ " * $Id: videostream.js,v ".toList ++ env.version ++ " ".toList
        ++ (y ++ ['/'] ++ mo ++ ['/'] ++ d ++ [' '] ++ h ++ [':'] ++ mi ++ [':'] ++ s)
        ++ " ".toList
        ++ (match env.username with
          | some u => u
          | none => "undefined".toList)
        ++ " Exp $\n".toList ++ " */\n".toList ∧
    (makeBundle env none buf p).stdout = p.stdout ++ [header env ++ scrub env.cwd buf] ∧
    '-' ∉ y ++ ['/'] ++ mo ++ ['/'] ++ d ++ [' '] ++ h ++ [':'] ++ mi ++ [':'] ++ s ∧
    'T' ∉ y ++ ['/'] ++ mo ++ ['/'] ++ d ++ [' '] ++ h ++ [':'] ++ mi ++ [':'] ++ s ∧
    '.' ∉ y ++ ['/'] ++ mo ++ ['/'] ++ d ++ [' '] ++ h ++ [':'] ++ mi ++ [':'] ++ s := by
  obtain ⟨h1, h2, h3, h4⟩ := headerDate_shape y mo d h mi s ms hy hmo hd hh hmi hs
  refine ⟨?_, ?_, h2, h3, h4⟩
  · simp only [header, hiso, h1]
  · simp [makeBundle, Process.writeOut, Process.writeErr]

theorem header_timestamp_witness :
    (∀ c ∈ ("2020" : Text), c.isDigit = true) ∧
    header
        { cwd := "/w", version := "1.0.0", username := some "u",
          isoNow := "2020-01-02T03:04:05.678Z", elapsed := 5 }
      = (("/**\n * This file is automatically generated. Do not edit it.\n"
          ++ " * $Id: videostream.js,v 1.0.0 2020/01/02 03:04:05 u Exp $\n */\n" : String) : Text) ∧
    (makeBundle
        { cwd := "/w", version := "1.0.0", username := some "u",
          isoNow := "2020-01-02T03:04:05.678Z", elapsed := 5 }
        none "var a;" Process.init).stdout
      = Process.init.stdout ++
        [header
            { cwd := "/w", version := "1.0.0", username := some "u",
              isoNow := "2020-01-02T03:04:05.678Z", elapsed := 5 }
          ++ scrub "/w" "var a;"] := by
  have h := header_timestamp
    { cwd := "/w", version := "1.0.0", username := some "u",
      isoNow := "2020-01-02T03:04:05.678Z", elapsed := 5 }
    "var a;" Process.init "2020" "01" "02" "03" "04" "05" "678" (by decide) (by decide)
    (by decide) (by decide) (by decide) (by decide) (by decide)
  exact ⟨by decide, h.1.trans (by decide), h.2.1⟩

/-! ## Universal redirects and the logical path -/

/-- C13: a working directory whose name holds `$$` is not inserted verbatim by
the inherits redirect. With the working directory `/home/u/a$$b` the text
`var i = require('inherits')` becomes
`var i = require("/home/u/a$b/bundle/utils").inherit`, with one dollar sign,
while `getUtilsMod(1) + '.inherit'` is
`require("/home/u/a$$b/bundle/utils").inherit`. -/
theorem universal_expands_dollar_in_cwd :
    Megaify.getUtilsMod
        { cwd := "/home/u/a$$b", filesize := 27, filename := "../bundle/main.js", pushed := [] }
        true ++ ".inherit".toList
      = ("require(\"/home/u/a$$b/bundle/utils\").inherit" : Text) ∧
    Megaify.universal
        { cwd := "/home/u/a$$b", filesize := 27, filename := "../bundle/main.js", pushed := [] }
        "var i = require('inherits')"
      = ("var i = require(\"/home/u/a$b/bundle/utils\").inherit" : Text) ∧
    Megaify.rewrite
        { cwd := "/home/u/a$$b", filesize := 27, filename := "../bundle/main.js", pushed := [] }
        "var i = require('inherits')"
      ≠ ("var i = require(\"/home/u/a$$b/bundle/utils\").inherit" : Text) := by
  decide

theorem not_prefix_of_head_ne {c d : Char} {k l : Text} (h : c ≠ d) :
    ¬ (c :: k) <+: (d :: l) :=
  fun hp => h (List.cons_prefix_cons.mp hp).1

theorem slashes_no_backslash (s : Text) : '\\' ∉ JS.slashes s := by
  intro hm
  obtain ⟨c, -, hc⟩ := List.mem_map.mp hm
  by_cases h : c = '\\'
  · rw [if_pos h] at hc
    exact absurd hc (by decide)
  · rw [if_neg h] at hc
    exact h hc

/-- The logical path of a module file under the working directory. -/
theorem new_filename_under_cwd (cwd filename rest : Text) (size : Nat) (p : Process)
    (h : JS.slashes filename = cwd ++ "/".toList ++ rest) :
    (Megaify.new cwd filename size p).1.filename = "../".toList ++ rest := by
  have hfind : JS.find cwd ([] ++ cwd ++ ("/".toList ++ rest)) = some ([] : Text).length :=
    JS.find_of_prefix ⟨"/".toList ++ rest, by simp⟩
  have hrep := @JS.replace_at cwd "..".toList [] ("/".toList ++ rest) hfind
  have hsub : JS.getSubstitution cwd [] ("/".toList ++ rest) "..".toList = "..".toList :=
    JS.getSubstitution_of_no_dollar _ _ _ _ (by decide)
  simp only [Megaify.new, h]
  rw [List.append_assoc]
  rw [List.nil_append, List.nil_append, hsub] at hrep
  rw [hrep]
  rfl

/-- C14: for a module file whose name, with its backslashes turned into
slashes, is the working directory followed by `/` and a rest, the logical path
is `../` followed by that rest and contains no backslash; and for each of the
five triggers the test `indexOf(trigger) > 0` holds exactly when the logical
path contains the trigger. -/
theorem logical_path_under_cwd (cwd filename rest : Text) (size : Nat) (p : Process)
    (_hc : cwd ≠ []) (_hn : '\\' ∉ cwd)
    (h : JS.slashes filename = cwd ++ "/".toList ++ rest) :
    (Megaify.new cwd filename size p).1.filename = "../".toList ++ rest ∧
    '\\' ∉ (Megaify.new cwd filename size p).1.filename ∧
    ∀ t ∈ triggers,
      (JS.indexOf (Megaify.new cwd filename size p).1.filename t > 0 ↔
        t <:+: (Megaify.new cwd filename size p).1.filename) := by
  have hf := new_filename_under_cwd cwd filename rest size p h
  have hdots : ("../".toList ++ rest : Text) = '.' :: ('.' :: '/' :: rest) := rfl
  refine ⟨hf, ?_, ?_⟩
  · rw [hf, hdots]
    have hrest : '\\' ∉ rest := by
      intro hm
      refine slashes_no_backslash filename ?_
      rw [h]
      exact List.mem_append_right _ hm
    intro hm
    simp only [List.mem_cons] at hm
    rcases hm with hm | hm | hm | hm
    · exact absurd hm (by decide)
    · exact absurd hm (by decide)
    · exact absurd hm (by decide)
    · exact hrest hm
  · intro t ht
    rw [hf, hdots]
    simp only [triggers, List.mem_cons, List.mem_singleton, List.not_mem_nil, or_false] at ht
    rcases ht with rfl | rfl | rfl | rfl | rfl
    · exact indexOf_pos_iff (not_prefix_of_head_ne (by decide))
    · exact indexOf_pos_iff (not_prefix_of_head_ne (by decide))
    · exact indexOf_pos_iff (not_prefix_of_head_ne (by decide))
    · exact indexOf_pos_iff (not_prefix_of_head_ne (by decide))
    · exact indexOf_pos_iff (not_prefix_of_head_ne (by decide))

theorem logical_path_under_cwd_witness :
    (("/home/u/vs" : Text) ≠ [] ∧ '\\' ∉ ("/home/u/vs" : Text) ∧
      JS.slashes "/home/u/vs\\node_modules\\pump\\index.js"
        = ("/home/u/vs" : Text) ++ "/".toList ++ ("node_modules/pump/index.js" : Text)) ∧
    (Megaify.new "/home/u/vs" "/home/u/vs\\node_modules\\pump\\index.js" 30
        Process.init).1.filename = "../".toList ++ ("node_modules/pump/index.js" : Text) :=
  ⟨⟨by decide, by decide, by decide⟩,
    (logical_path_under_cwd "/home/u/vs" "/home/u/vs\\node_modules\\pump\\index.js"
      "node_modules/pump/index.js" 30 Process.init (by decide) (by decide) (by decide)).1⟩

end Videostream
